import Mathlib

/-!
Verification of the Lua concatenation builder
(`build/scripts/build_single_lua_release.py`).

The Python source is shallowly embedded below.  Conventions of the model:

* A `Path` is the project-root-relative path as a string; `PROJECT_ROOT / x`
  is modelled as `x` itself and `Path.resolve` as the identity (no symlinks
  or `..` segments are modelled).
* The filesystem is a function `FS : String → Option String`: `some c` means
  a readable file with content `c`, `none` means the path does not exist or
  reading raises (the two are not distinguished; directories are not
  modelled).  `path.exists()` is `(fs p).isSome` and `path.read_text()` is
  `fs p`.
* Python line splitting is modelled with `'\n'` as the sole line terminator
  (a terminating `"\r\n"` is kept as part of a line and handled by the
  whitespace classifiers, exactly as Python's regexes handle it).
* Python `str` comparison is code-point lexicographic; it is modelled by an
  executable lexicographic order on the character lists, and the stable
  `list.sort(key=...)` by insertion sort with the same key.
-/

namespace Bundler

abbrev Path := String

abbrev FS := String → Option String

/-- The characters matched by `\s` (and stripped by `str.rstrip()`) in the
ASCII range; the source only ever meets ASCII whitespace. -/
def isPySpace (c : Char) : Bool :=
  c = ' ' || c = '\t' || c = '\n' || c = '\r' || c = Char.ofNat 11 || c = Char.ofNat 12

/-- The characters a line terminator can contain. -/
def isTermChar (c : Char) : Bool := c = '\n' || c = '\r'

/-- The character class `[-A-Za-z0-9_./]` of `REQUIRE_RE`. -/
def isModChar (c : Char) : Bool :=
  c.isAlpha || c.isDigit || c = '_' || c = '.' || c = '/' || c = '-'

/-- The two quote characters accepted by `REQUIRE_RE`. -/
def isQuote (c : Char) : Bool :=
  c = Char.ofNat 34 || c = Char.ofNat 39

/-- `BLANK_RE = ^\s*$` via `re.match`: the line is all whitespace. -/
def isBlankLine (l : String) : Bool :=
  l.data.all isPySpace

/-- `COMMENT_RE = ^\s*--` via `re.match`: after the maximal run of leading
whitespace the line continues with `--`. -/
def isCommentLine (l : String) : Bool :=
  ['-', '-'].isPrefixOf (l.data.dropWhile isPySpace)

/-- Parse the remainder of `REQUIRE_RE` after the quoted module name:
`\)\s*$`. -/
def requireTail (cs : List Char) : Bool :=
  match cs with
  | c :: rest => c == ')' && rest.all isPySpace
  | [] => false

/-- Continue `REQUIRE_RE` after the captured name: closing quote, `\)`,
then trailing whitespace. -/
def requireAfterQuote (name after : List Char) : Option String :=
  match after with
  | q2 :: rest2 =>
    if isQuote q2 && !name.isEmpty && requireTail rest2 then some ⟨name⟩ else none
  | [] => none

/-- Parse `["\']([-A-Za-z0-9_./]+)["\']\)\s*$`, returning the module name. -/
def requireQuoted (cs : List Char) : Option String :=
  match cs with
  | q :: rest =>
    if isQuote q then
      requireAfterQuote (rest.takeWhile isModChar) (rest.drop (rest.takeWhile isModChar).length)
    else none
  | [] => none

/-- `is_require`: match `REQUIRE_RE = ^\s*require\(["\']([-A-Za-z0-9_./]+)["\']\)\s*$`
against the line, returning the captured module identifier. -/
def isRequireLine (l : String) : Option String :=
  let cs := l.data.dropWhile isPySpace
  if "require(".data.isPrefixOf cs then requireQuoted (cs.drop 8) else none

/-- Substring test (`sub in s` on Python strings). -/
def strContains (s sub : String) : Bool :=
  s.data.tails.any (fun t => sub.data.isPrefixOf t)

/-- Split into lines keeping the `'\n'` terminators
(`str.splitlines(True)` with `'\n'` as terminator). -/
def linesKeepAux : List Char → List Char → List String
  | [], acc => match acc with
    | [] => []
    | _ => [⟨acc.reverse⟩]
  | c :: cs, acc =>
    if c = '\n' then ⟨(c :: acc).reverse⟩ :: linesKeepAux cs []
    else linesKeepAux cs (c :: acc)

def splitlinesKeep (s : String) : List String :=
  linesKeepAux s.data []

/-- Remove a single trailing line terminator (`"\r\n"` or `"\n"`). -/
def dropLineEnd (l : String) : String :=
  match l.data.reverse with
  | c :: rest =>
    if c = '\n' then
      match rest with
      | c2 :: rest2 => if c2 = '\r' then ⟨rest2.reverse⟩ else ⟨rest.reverse⟩
      | [] => ⟨rest.reverse⟩
    else l
  | [] => l

/-- `str.splitlines()` (without terminators). -/
def splitlines (s : String) : List String :=
  (splitlinesKeep s).map dropLineEnd

/-- A `while i < len(lines) and pred(lines[i]): i += 1` loop: the number of
leading lines satisfying the predicate. -/
def skipLen (p : String → Bool) (ls : List String) : Nat :=
  (ls.takeWhile p).length

/-- The block-comment stage of `_header_end_index`: if the current line
contains `--[[`, skip until the line containing `]]` and move past it. -/
def blockSkipLen (r1 : List String) : Nat :=
  match r1 with
  | [] => 0
  | l :: _ =>
    if strContains l "--[[" then
      let m := skipLen (fun x => ! strContains x "]]") r1
      if m < r1.length then m + 1 else m
    else 0

/-- `_header_end_index(lines)`: skip leading blanks; if the first remaining
line contains `--[[`, skip up to and past the first line containing `]]`;
then skip blanks, line comments, and blanks again. -/
def headerEndIndex (lines : List String) : Nat :=
  let i1 := skipLen isBlankLine lines
  let r1 := lines.drop i1
  let k := blockSkipLen r1
  let r2 := r1.drop k
  let i3 := skipLen isBlankLine r2
  let r3 := r2.drop i3
  let i4 := skipLen isCommentLine r3
  let r4 := r3.drop i4
  let i5 := skipLen isBlankLine r4
  i1 + (k + (i3 + (i4 + i5)))

/-- A line consumed by the strip loop of `strip_initial_requires`:
a require statement or a blank line. -/
def isReqOrBlank (l : String) : Bool :=
  (isRequireLine l).isSome || isBlankLine l

/-- `strip_initial_requires(content)`: delete the contiguous run of
require/blank lines that starts at the header end. -/
def strip_initial_requires (content : String) : String :=
  let lines := splitlinesKeep content
  let i := headerEndIndex lines
  let j := i + ((lines.drop i).takeWhile isReqOrBlank).length
  if i < j then String.join (lines.take i ++ lines.drop j) else content

/-- The collection loop of `read_requires`: walk the lines after the header
end, skipping blanks, collecting require identifiers, stopping at the first
line that is neither. -/
def collectReqs : List String → List String
  | [] => []
  | l :: ls =>
    if isBlankLine l then collectReqs ls
    else
      match isRequireLine l with
      | some mod => mod :: collectReqs ls
      | none => []

/-- `read_requires` applied to content that was successfully read. -/
def readRequiresContent (content : String) : List String :=
  let lines := splitlines content
  collectReqs (lines.drop (headerEndIndex lines))

/-- `read_requires(path)`: an unreadable file yields `[]`. -/
def read_requires (fs : FS) (p : Path) : List String :=
  match fs p with
  | none => []
  | some text => readRequiresContent text

/-- `PROJECT_ROOT / root / rel`, with `PROJECT_ROOT` modelled away. -/
def joinPath (a b : String) : String :=
  a ++ "/" ++ b

/-- `mod.replace(".", "/") + ".lua"`. -/
def modRelPath (mod : String) : String :=
  String.mk (mod.data.map (fun c => if c = '.' then '/' else c)) ++ ".lua"

/-- `module_to_path(mod, module_roots)`: the first configured root under
which the derived relative path exists. -/
def module_to_path (fs : FS) (mod : String) (module_roots : List String) : Option Path :=
  module_roots.findSome? (fun root =>
    let p := joinPath root (modRelPath mod)
    if (fs p).isSome then some p else none)

/-- Resolution with `build_graph`'s guard: the dependency must resolve, be
among the discovered files, and not be the header (specification-side
companion of the inner-loop condition of `build_graph`). -/
def resolveGuard (fs : FS) (files : List Path) (roots : List String)
    (header : Option Path) (mod : String) : Option Path :=
  match module_to_path fs mod roots with
  | some dep => if dep ∈ files ∧ header ≠ some dep then some dep else none
  | none => none

/-- The in-set resolved dependencies of a file, in require order
(possibly with duplicates). -/
def resolvedDeps (fs : FS) (files : List Path) (roots : List String)
    (header : Option Path) (f : Path) : List Path :=
  (read_requires fs f).filterMap (resolveGuard fs files roots header)

/-- Adjacency: `edges` maps a dependency to its recorded dependents
(a Python `set`, modelled as a duplicate-free list). -/
abbrev Edges := List (Path × List Path)

/-- Per-node indegree counters (a Python `dict` of `int`s). -/
abbrev Indeg := List (Path × Int)

/-- Dictionary lookup on an association list. -/
def lookupA {α : Type} (l : List (Path × α)) (p : Path) : Option α :=
  (l.find? (fun q => q.1 == p)).map Prod.snd

/-- `edges[u]`; looking up a missing key is undefined behaviour in the
source (a `KeyError`) and is modelled as the empty set. -/
def depsOf (edges : Edges) (u : Path) : List Path :=
  (lookupA edges u).getD []

/-- `edges[dep].add(f)` (the caller guarantees `f` is not yet present). -/
def addDependent (edges : Edges) (dep f : Path) : Edges :=
  edges.map (fun q => if q.1 = dep then (q.1, q.2 ++ [f]) else q)

/-- `indeg[f] += 1`. -/
def incIndeg (ind : Indeg) (f : Path) : Indeg :=
  ind.map (fun q => if q.1 = f then (q.1, q.2 + 1) else q)

/-- `indeg[v] -= 1`. -/
def decIndeg (ind : Indeg) (v : Path) : Indeg :=
  ind.map (fun q => if q.1 = v then (q.1, q.2 - 1) else q)

/-- The body of `build_graph`'s inner loop: resolve one required module of
file `f` and record the edge `dependency → f` unless already present. -/
def addReq (fs : FS) (files : List Path) (roots : List String) (header : Option Path)
    (st : Edges × Indeg) (f : Path) (mod : String) : Edges × Indeg :=
  match module_to_path fs mod roots with
  | none => st
  | some dep =>
    if dep ∈ files ∧ header ≠ some dep then
      if f ∈ depsOf st.1 dep then st
      else (addDependent st.1 dep f, incIndeg st.2 f)
    else st

/-- `build_graph(files, module_roots, header)`. -/
def build_graph (fs : FS) (files : List Path) (roots : List String)
    (header : Option Path) : Edges × Indeg :=
  let nodes := files.filter (fun f => header != some f)
  let edges0 : Edges := nodes.map (fun f => (f, []))
  let indeg0 : Indeg := nodes.map (fun f => (f, 0))
  files.foldl
    (fun st f =>
      if header = some f then st
      else (read_requires fs f).foldl (fun st2 mod => addReq fs files roots header st2 f mod) st)
    (edges0, indeg0)

/-- Code-point lexicographic order on character lists
(Python `str` comparison). -/
def listLexLt : List Char → List Char → Bool
  | _, [] => false
  | [], _ :: _ => true
  | a :: as, b :: bs => if a < b then true else if b < a then false else listLexLt as bs

def strLtB (a b : String) : Bool := listLexLt a.data b.data

def strLeB (a b : String) : Bool := strLtB a b || a == b

/-- `str(p.parent)`: the path up to the last `'/'`, or `"."`. -/
def parentDir (p : Path) : String :=
  let r := p.data.reverse
  let k := (r.takeWhile (fun c => c ≠ '/')).length
  if k = r.length then "." else ⟨p.data.take (p.data.length - k - 1)⟩

/-- `key_fn(p) = (str(p.parent), str(p))` compared lexicographically. -/
def keyLE (p q : Path) : Bool :=
  strLtB (parentDir p) (parentDir q) || (parentDir p == parentDir q && strLeB p q)

/-- Python's stable `list.sort(key=key_fn)`, modelled by insertion sort. -/
def sortK (l : List Path) : List Path :=
  l.insertionSort (fun p q => keyLE p q = true)

/-- Process one dependent `v` of the popped node: decrement its indegree
and, if it reaches zero, append it to the ready queue and re-sort. -/
def processDep (s : List Path × Indeg) (v : Path) : List Path × Indeg :=
  let ind2 := decIndeg s.2 v
  if lookupA ind2 v = some 0 then (sortK (s.1 ++ [v]), ind2) else (s.1, ind2)

/-- Loop count bound for the Kahn phase: every iteration pops one queue
element and pushes at most as many elements as indegree units it removes. -/
def kahnMeasure (q : List Path) (ind : Indeg) : Nat :=
  q.length + (ind.map (fun x => x.2.toNat)).sum

/-- The `while q:` loop of `topo_sort`.  The fuel is only a structural
termination device: `kahnMeasure` strictly decreases at every iteration, so
with initial fuel `kahnMeasure q ind` the `0` branch is reached only with an
empty queue (proved below). -/
def kahnLoopF (edges : Edges) : Nat → List Path → Indeg → List Path → List Path
  | _, [], _, out => out
  | 0, _ :: _, _, out => out
  | fuel + 1, u :: rest, ind, out =>
    let st := (sortK (depsOf edges u)).foldl processDep (rest, ind)
    kahnLoopF edges fuel st.1 st.2 (out ++ [u])

/-- The Kahn phase of `topo_sort`: seed the queue with the zero-indegree
nodes, sorted by key, and run the loop. -/
def kahnPhase (edges : Edges) (ind : Indeg) : List Path :=
  let q0 := sortK ((ind.filter (fun pd => pd.2 == 0)).map Prod.fst)
  kahnLoopF edges (kahnMeasure q0 ind) q0 ind []

/-- `topo_sort(edges, indeg)`: Kahn phase, then append every node not yet
placed, scanning the keys of `edges` in insertion order. -/
def topo_sort (edges : Edges) (ind : Indeg) : List Path :=
  (edges.map Prod.fst).foldl (fun acc p => if p ∈ acc then acc else acc ++ [p])
    (kahnPhase edges ind)

/-- `make_banner_comment(project_name, version)`. -/
def make_banner_comment (name ver : Option String) : String :=
  match name, ver with
  | some n, some v => "-- " ++ n ++ ": " ++ v ++ " loading...\n"
  | some n, none => "-- " ++ n ++ " loading...\n"
  | none, some v => "-- version: " ++ v ++ " loading...\n"
  | none, none => ""

/-- `str.rstrip()`. -/
def rstrip (s : String) : String :=
  ⟨(s.data.reverse.dropWhile isPySpace).reverse⟩

/-- Suffix test (`str.endswith`). -/
def strEndsWith (s suf : String) : Bool :=
  suf.data.reverse.isPrefixOf s.data.reverse

/-- Resolution of a prepend entry: relative to the project root first, else
relative to the source directory (`main` and `write_output` share this). -/
def resolvePrepend (fs : FS) (srcDir : String) (p : String) : Path :=
  if (fs p).isSome then p else joinPath srcDir p

/-- `main`'s header detection: the first prepend entry that resolves to an
existing file whose path ends in `_header.lua`. -/
def selectHeader (fs : FS) (srcDir : String) (prepend : List String) : Option Path :=
  prepend.findSome? (fun p =>
    let hp := resolvePrepend fs srcDir p
    if (fs hp).isSome && strEndsWith hp "_header.lua" then some hp else none)

/-!
The safety-net pass of `write_output`:

    re.sub(r"(?m)^(?!\s*--)\s*require\([\"\x27]([-A-Za-z0-9_./]+)[\"\x27]\)"
           r"\s*(?:--.*)?\r?\n", "", final_text)

`re.sub` scans for leftmost matches; with `(?m)` the anchor `^` restricts
match starts to line starts.  Inside the pattern `\s` also matches newlines,
so a single match can consume blank lines before the `require` call and a
blank run plus one trailing comment line after it.  The greedy quantifiers
are resolved below exactly as the backtracking engine resolves them: the
character classes are mutually exclusive with the literals that follow them,
so only the final `\s*(?:--.*)?\r?\n` needs a longest-first search.
-/

/-- Match `(?:--.*)?\r?\n` at the given position. -/
def trailMatch (u : List Char) : Option Nat :=
  if ['-', '-'].isPrefixOf u then
    let body := (u.drop 2).takeWhile (fun c => c ≠ '\n')
    match u.drop (2 + body.length) with
    | '\n' :: _ => some (2 + body.length + 1)
    | _ => none
  else
    match u with
    | '\n' :: _ => some 1
    | '\r' :: '\n' :: _ => some 2
    | _ => none

/-- Greedy `\s*` before `(?:--.*)?\r?\n`: try the longest whitespace run
first and backtrack one character at a time. -/
def searchBack (t : List Char) : Nat → Option Nat
  | 0 => trailMatch t
  | k + 1 =>
    match trailMatch (t.drop (k + 1)) with
    | some m => some (k + 1 + m)
    | none => searchBack t k

/-- Match `\s*(?:--.*)?\r?\n` at the given position. -/
def spacedTrailMatch (t : List Char) : Option Nat :=
  searchBack t ((t.takeWhile isPySpace).length)

/-- Length of `["\x27](id)["\x27]\)` at the given position. -/
def requireQuotedLen (cs : List Char) : Option Nat :=
  match cs with
  | q :: rest =>
    if isQuote q then
      let name := rest.takeWhile isModChar
      if name.isEmpty then none
      else
        match rest.drop name.length with
        | q2 :: c :: _ => if isQuote q2 && c == ')' then some (1 + name.length + 2) else none
        | _ => none
    else none
  | [] => none

/-- Attempt the full safety-net pattern at a line start, returning the
number of characters the match consumes. -/
def matchRequireAt (cs : List Char) : Option Nat :=
  let ws1 := (cs.takeWhile isPySpace).length
  let cs1 := cs.drop ws1
  if ['-', '-'].isPrefixOf cs1 then none
  else if "require(".data.isPrefixOf cs1 then
    (requireQuotedLen (cs1.drop 8)).bind (fun qlen =>
      (spacedTrailMatch (cs1.drop (8 + qlen))).map (fun m => ws1 + 8 + qlen + m))
  else none

/-- The `re.sub` scan: at every line start try the pattern; on a match drop
the matched characters (the match ends after a newline, hence at a line
start again), otherwise copy up to and including the next newline.  Every
step consumes at least one character, so `s.length` fuel suffices. -/
def stripScanF : Nat → List Char → List Char
  | _, [] => []
  | 0, cs => cs
  | fuel + 1, cs =>
    match matchRequireAt cs with
    | some n => stripScanF fuel (cs.drop n)
    | none =>
      let line := cs.takeWhile (fun c => c ≠ '\n')
      match cs.drop line.length with
      | '\n' :: rest => line ++ '\n' :: stripScanF fuel rest
      | _ => cs

/-- The safety-net pass over the assembled text. -/
def stripRequireLines (s : String) : String :=
  ⟨stripScanF s.data.length s.data⟩

/-- The parts a prepend entry contributes to the bundle: marker, raw
content, a newline plus the end marker plus a blank line — or nothing when
the resolved path does not exist. -/
def prependUnit (fs : FS) (srcDir : String) (p : String) : List String :=
  let abs_p := resolvePrepend fs srcDir p
  match fs abs_p with
  | some content =>
    ["-- ==== BEGIN: " ++ abs_p ++ " ====\n", content,
      "\n-- ==== END: " ++ abs_p ++ " ====\n\n"]
  | none => []

/-- The parts an ordered file contributes: marker, the (optionally
import-stripped) content right-trimmed plus a newline, the end marker plus
a blank line; `none` when the read fails (the source raises there). -/
def orderUnit (fs : FS) (strip : Bool) (f : Path) : Option (List String) :=
  match fs f with
  | some content0 =>
    let content := if strip then strip_initial_requires content0 else content0
    some ["-- ==== BEGIN: " ++ f ++ " ====\n", rstrip content ++ "\n",
      "-- ==== END: " ++ f ++ " ====\n\n"]
  | none => none

/-- `write_output`, modelled as returning the text written to the output
file.  Project name/version are inputs (the spec's external metadata
provider); a failing read of an ordered file raises in the source and
yields `none` here. -/
def write_output (fs : FS) (srcDir : String) (prepend : List String) (strip : Bool)
    (name ver : Option String) (order : List Path) : Option String :=
  let banner := make_banner_comment name ver
  let parts0 : List String := if banner = "" then [] else [banner]
  let prependParts : List String :=
    prepend.foldl (fun acc p => acc ++ prependUnit fs srcDir p) []
  let orderParts : Option (List String) :=
    order.foldl
      (fun acc f => acc.bind (fun ps => (orderUnit fs strip f).map (fun us => ps ++ us)))
      (some [])
  orderParts.map (fun ps =>
    let final := String.join (parts0 ++ prependParts ++ ps)
    if strip then stripRequireLines final else final)

/-- Substring test at the character level: `needle` occurs contiguously in
`hay`. -/
def containsSub (hay needle : String) : Bool :=
  hay.data.tails.any (fun t => needle.data.isPrefixOf t)

/-- A filesystem whose configured prepend file starts with a require
line. -/
def fsC3 : FS := fun p =>
  if p = "src/h.lua" then some "require(\x27a\x27)\nx = 1\n" else none

/-- A filesystem whose configured prepend file is plain code. -/
def fsC7 : FS := fun p =>
  if p = "src/p.lua" then some "y = 2\n" else none

/-- A two-root filesystem where the module `foo.bar` exists under both
`src` and `alt`: resolution returns the `src` path. -/
def fsTwoRoots : FS := fun p =>
  if p = "src/foo/bar.lua" then some "" else if p = "alt/foo/bar.lua" then some "" else none

/-- `inDegree` of a node: the number of keys whose dependent set contains
it (this is what the `indeg` counters track). -/
def inDegOf (E : Edges) (v : Path) : Nat :=
  (E.map Prod.fst).countP (fun u => (depsOf E u).contains v)

/-- A filesystem in which `src/b.lua` requires module `a` twice. -/
def fsDupReq : FS := fun p =>
  if p = "src/a.lua" then some "A = 1\n"
  else if p = "src/b.lua" then some "require('a')\nrequire('a')\n\nB = 2\n"
  else none

/-- The loop invariant of the Kahn phase of `topo_sort`, over a fixed edge
map `E`: `out` is the emitted order so far, `q` the ready queue, `ind` the
current counters. -/
structure KInv (E : Edges) (q : List Path) (ind : Indeg) (out : List Path) : Prop where
  keys : ind.map Prod.fst = E.map Prod.fst
  nd : (out ++ q).Nodup
  outMem : ∀ v ∈ out, v ∈ E.map Prod.fst
  qMem : ∀ v ∈ q, v ∈ E.map Prod.fst
  count : ∀ v ∈ E.map Prod.fst, lookupA ind v =
    some ((inDegOf E v : Int) - ((out.countP (fun u => (depsOf E u).contains v) : Nat) : Int))
  ready : ∀ v ∈ q, ∀ u, v ∈ depsOf E u → u ∈ out
  sorted : ∀ pre v suf, out = pre ++ v :: suf → ∀ u, v ∈ depsOf E u → u ∈ pre
  fresh : ∀ v ∈ E.map Prod.fst, v ∉ out → v ∉ q →
    out.countP (fun u => (depsOf E u).contains v) < inDegOf E v

/-- The invariant while the dependents of the popped node `u` are being
processed: `out` is the order before `u` was appended, `rest` the queue
after popping `u`, and `P` the dependents of `u` already decremented. -/
structure MInv (E : Edges) (u : Path) (out rest P q : List Path) (ind : Indeg) : Prop where
  keys : ind.map Prod.fst = E.map Prod.fst
  nd : ((out ++ [u]) ++ q).Nodup
  qMem : ∀ v ∈ q, v ∈ E.map Prod.fst
  count : ∀ v ∈ E.map Prod.fst, lookupA ind v =
    some ((inDegOf E v : Int) - ((out.countP (fun w => (depsOf E w).contains v) : Nat) : Int)
      - (if v ∈ P then (1 : Int) else 0))
  ready : ∀ v ∈ q, ∀ w, v ∈ depsOf E w → w ∈ out ++ [u]
  qOrigin : ∀ x ∈ q, x ∈ rest ∨ x ∈ P
  fresh : ∀ v ∈ E.map Prod.fst, v ∉ out ++ [u] → v ∉ q →
    ((out.countP (fun w => (depsOf E w).contains v) : Nat) : Int)
      + (if v ∈ P then (1 : Int) else 0) < (inDegOf E v : Int)

/-- A well-formed graph as produced by `build_graph`: the two dictionaries
share their (duplicate-free) key set, dependent sets are duplicate-free
in-set nodes, and every counter holds the node's indegree. -/
structure WellFormedGraph (E : Edges) (ind : Indeg) : Prop where
  keys : ind.map Prod.fst = E.map Prod.fst
  ndk : (E.map Prod.fst).Nodup
  deps : ∀ pr ∈ E, pr.2.Nodup ∧ ∀ x ∈ pr.2, x ∈ E.map Prod.fst
  count : ∀ v ∈ E.map Prod.fst, lookupA ind v = some ((inDegOf E v : Int))

/-- Acyclicity, as the existence of a topological numbering. -/
def Acyclic (E : Edges) : Prop :=
  ∃ rank : Path → Nat, ∀ u v, v ∈ depsOf E u → rank u < rank v

/-- The chain `a → b` as a concrete graph. -/
def chainE : Edges := [("src/a.lua", ["src/b.lua"]), ("src/b.lua", [])]

def chainI : Indeg := [("src/a.lua", 0), ("src/b.lua", 1)]

/-- The mutual cycle `a ↔ b` as a concrete graph: the Kahn phase places
nothing and both files are emitted in discovery order. -/
def cycleE : Edges := [("src/a.lua", ["src/b.lua"]), ("src/b.lua", ["src/a.lua"])]

def cycleI : Indeg := [("src/a.lua", 1), ("src/b.lua", 1)]

/-- A filesystem with a configured prepend file `src/extra.lua` that does
not end in `_header.lua`: `main` selects no header for it. -/
def fsC6 : FS := fun p =>
  if p = "src/a.lua" then some "A = 1\n"
  else if p = "src/extra.lua" then some "E = 1\n" else none

/-- A filesystem whose prepend entry `src/_header.lua` is selected as the
header. -/
def fsHdr : FS := fun p =>
  if p = "src/_header.lua" then some "H = 0\n"
  else if p = "src/a.lua" then some "A = 1\n" else none

theorem module_to_path_eq_first (fs : FS) (mod : String) (roots : List String) :
    module_to_path fs mod roots =
      ((roots.filter fun r => (fs (joinPath r (modRelPath mod))).isSome).head?).map
        (fun r => joinPath r (modRelPath mod)) := by
  induction roots with
  | nil => rfl
  | cons r rs ih =>
    by_cases h : (fs (joinPath r (modRelPath mod))).isSome <;>
      simp [module_to_path, List.findSome?, h, List.filter_cons] at ih ⊢ <;>
      simpa [module_to_path] using ih

/-- C8: module-identifier resolution is deterministic and root-order
sensitive: with the configured roots split as `pre ++ r :: post`, if the
derived relative path exists under `r` and under no root of `pre`, then
`module_to_path` returns the path under `r` — in particular, when the path
exists under two or more roots, the first configured root wins. -/
theorem C8_resolution_first_configured_root_wins (fs : FS) (mod : String)
    (pre post : List String) (r : String)
    (hr : (fs (joinPath r (modRelPath mod))).isSome)
    (hpre : ∀ r' ∈ pre, ¬ (fs (joinPath r' (modRelPath mod))).isSome) :
    module_to_path fs mod (pre ++ r :: post) = some (joinPath r (modRelPath mod)) := by
  rw [module_to_path_eq_first, List.filter_append, List.filter_eq_nil_iff.mpr (by simpa using hpre)]
  simp [List.filter_cons, hr]

theorem C8_witness :
    module_to_path fsTwoRoots "foo.bar" ["src", "alt"] = some (joinPath "src" (modRelPath "foo.bar"))
      ∧ (fsTwoRoots "alt/foo/bar.lua").isSome :=
  ⟨C8_resolution_first_configured_root_wins fsTwoRoots "foo.bar" [] ["alt"] "src"
      (by decide) (by intro r' h; simp at h),
    by decide⟩

/-- C9: a file whose content cannot be read contributes the empty
reference list; the failure is absorbed inside `read_requires` and never
propagated. -/
theorem C9_unreadable_file_has_no_references (fs : FS) (p : Path) (h : fs p = none) :
    read_requires fs p = [] := by
  simp [read_requires, h]

theorem C9_witness : read_requires (fun _ => none) "src/x.lua" = [] :=
  C9_unreadable_file_has_no_references (fun _ => none) "src/x.lua" rfl

/-! Helper lemmas relating `splitlinesKeep`, `splitlines` and the line
classifiers, used for C10. -/

theorem linesKeepAux_flatten (cs : List Char) :
    ∀ acc, ((linesKeepAux cs acc).map String.data).flatten = acc.reverse ++ cs := by
  induction cs with
  | nil =>
    intro acc
    cases acc <;> simp [linesKeepAux]
  | cons c cs ih =>
    intro acc
    by_cases h : c = '\n' <;> simp [linesKeepAux, h, ih]

theorem data_join (l : List String) : (String.join l).data = (l.map String.data).flatten := by
  suffices h : ∀ init : String, (l.foldl (· ++ ·) init).data = init.data ++ (l.map String.data).flatten by
    simpa using h ""
  induction l with
  | nil => intro init; simp
  | cons s l ih => intro init; simp [ih, String.data_append]

theorem join_splitlinesKeep (s : String) : String.join (splitlinesKeep s) = s := by
  apply String.ext
  rw [data_join, splitlinesKeep, linesKeepAux_flatten]
  simp

theorem dropLineEnd_spec (l : String) :
    ∃ t, l.data = (dropLineEnd l).data ++ t ∧ t.all isPySpace ∧ t.all isTermChar := by
  have hrr : l.data.reverse.reverse = l.data := List.reverse_reverse _
  rcases h : l.data.reverse with _ | ⟨c, rest⟩
  · exact ⟨[], by simp [dropLineEnd, h], by decide, by decide⟩
  · by_cases hc : c = '\n'
    · subst hc
      rcases rest with _ | ⟨c2, rest2⟩
      · refine ⟨['\n'], ?_, by decide, by decide⟩
        rw [← hrr, h]
        simp [dropLineEnd, h]
      · by_cases hc2 : c2 = '\r'
        · subst hc2
          refine ⟨['\r', '\n'], ?_, by decide, by decide⟩
          rw [← hrr, h]
          simp [dropLineEnd, h]
        · refine ⟨['\n'], ?_, by decide, by decide⟩
          rw [← hrr, h]
          simp [dropLineEnd, h, hc2]
    · exact ⟨[], by simp [dropLineEnd, h, hc], by decide, by decide⟩

theorem isTermChar_cases {c : Char} (h : isTermChar c) : c = '\n' ∨ c = '\r' := by
  simpa [isTermChar] using h

theorem term_not_quote {c : Char} (h : isTermChar c) : isQuote c = false := by
  rcases isTermChar_cases h with rfl | rfl <;> decide

theorem term_not_mod {c : Char} (h : isTermChar c) : isModChar c = false := by
  rcases isTermChar_cases h with rfl | rfl <;> decide

theorem term_not_paren {c : Char} (h : isTermChar c) : (c == ')') = false := by
  rcases isTermChar_cases h with rfl | rfl <;> decide

theorem term_not_in_require {c : Char} (h : isTermChar c) : c ∉ "require(".data := by
  rcases isTermChar_cases h with rfl | rfl <;> decide

theorem term_not_in_dashes {c : Char} (h : isTermChar c) : c ∉ ['-', '-'] := by
  rcases isTermChar_cases h with rfl | rfl <;> decide

theorem term_not_in_blockOpen {c : Char} (h : isTermChar c) : c ∉ "--[[".data := by
  rcases isTermChar_cases h with rfl | rfl <;> decide

theorem term_not_in_blockClose {c : Char} (h : isTermChar c) : c ∉ "]]".data := by
  rcases isTermChar_cases h with rfl | rfl <;> decide

theorem isPrefixOf_append_of_disjoint (pat : List Char) :
    ∀ (a t : List Char), (∀ c ∈ t, c ∉ pat) →
      pat.isPrefixOf (a ++ t) = pat.isPrefixOf a := by
  induction pat with
  | nil => intro a t _; simp
  | cons p ps ih =>
    intro a t ht
    cases a with
    | nil =>
      cases t with
      | nil => rfl
      | cons c t' =>
        have hcp : (p == c) = false :=
          beq_eq_false_iff_ne.mpr
            (fun h => (ht c (by simp)) (List.mem_cons.mpr (Or.inl h.symm)))
        simp [List.isPrefixOf, hcp]
    | cons x a' =>
      have ht' : ∀ c ∈ t, c ∉ ps := fun c hc hmem => ht c hc (List.mem_cons_of_mem _ hmem)
      simp [List.isPrefixOf, ih a' t ht']

theorem takeWhile_eq_nil_of_neg {p : Char → Bool} {t : List Char}
    (h : ∀ c ∈ t, p c = false) : t.takeWhile p = [] := by
  cases t with
  | nil => rfl
  | cons c t' => simp [List.takeWhile_cons, h c (by simp)]

theorem dropWhile_eq_drop_length {α : Type} (p : α → Bool) (l : List α) :
    l.dropWhile p = l.drop (l.takeWhile p).length :=
  calc l.dropWhile p
      = ((l.takeWhile p) ++ (l.dropWhile p)).drop (l.takeWhile p).length :=
        (List.drop_left _ _).symm
    _ = l.drop (l.takeWhile p).length := by rw [List.takeWhile_append_dropWhile]

theorem isPrefixOf_cons_eq_false {s c : Char} (ss t' : List Char) (h : s ≠ c) :
    (s :: ss).isPrefixOf (c :: t') = false := by
  have : (s == c) = false := beq_eq_false_iff_ne.mpr h
  simp [List.isPrefixOf, this]

theorem tails_any_disjoint (sub : List Char) (hne : sub ≠ []) :
    ∀ t : List Char, (∀ c ∈ t, c ∉ sub) →
      (t.tails.any (fun u => sub.isPrefixOf u)) = false := by
  obtain ⟨s, ss, rfl⟩ := List.exists_cons_of_ne_nil hne
  intro t
  induction t with
  | nil =>
    intro _
    simp [List.tails, List.isPrefixOf]
  | cons c t' ih =>
    intro h
    rw [List.tails_cons]
    have hsc : s ≠ c := fun he => (h c (by simp)) (List.mem_cons.mpr (Or.inl he.symm))
    simp only [List.any_cons, isPrefixOf_cons_eq_false ss t' hsc, Bool.false_or]
    exact ih (fun c' hc' => h c' (List.mem_cons_of_mem _ hc'))

theorem strContains_append (sub : String) (hne : sub.data ≠ [])
    (t : List Char) (ht : ∀ c ∈ t, c ∉ sub.data) :
    ∀ d : List Char, strContains ⟨d ++ t⟩ sub = strContains ⟨d⟩ sub := by
  intro d
  induction d with
  | nil =>
    show strContains ⟨t⟩ sub = _
    unfold strContains
    simp only [show (String.mk t).data = t from rfl, show (String.mk []).data = [] from rfl]
    rw [tails_any_disjoint sub.data hne t ht]
    obtain ⟨s, ss, hss⟩ := List.exists_cons_of_ne_nil hne
    rw [hss]
    simp [List.tails, List.isPrefixOf]
  | cons c d' ih =>
    unfold strContains at ih ⊢
    simp only [show (String.mk ((c :: d') ++ t)).data = c :: (d' ++ t) from rfl,
      show (String.mk (c :: d')).data = c :: d' from rfl, List.tails_cons, List.any_cons]
    simp only [show (String.mk (d' ++ t)).data = d' ++ t from rfl,
      show (String.mk d').data = d' from rfl] at ih
    rw [List.cons_append, List.tails_cons, List.any_cons, ih, ← List.cons_append,
      isPrefixOf_append_of_disjoint sub.data (c :: d') t ht]

theorem isBlankLine_append (d t : List Char) (hws : t.all isPySpace) :
    isBlankLine ⟨d ++ t⟩ = isBlankLine ⟨d⟩ := by
  simp [isBlankLine, List.all_append, hws]

theorem dropWhile_pyspace_append (d t : List Char) (hws : t.all isPySpace) :
    (d ++ t).dropWhile isPySpace =
      if (d.dropWhile isPySpace).isEmpty then [] else d.dropWhile isPySpace ++ t := by
  rw [List.dropWhile_append]
  rcases h : d.dropWhile isPySpace with _ | ⟨x, xs⟩
  · simp [List.dropWhile_eq_nil_iff.mpr (fun c hc => by
      simpa using List.all_eq_true.mp hws c hc)]
  · simp

theorem isCommentLine_append (d t : List Char) (hws : t.all isPySpace)
    (hterm : t.all isTermChar) :
    isCommentLine ⟨d ++ t⟩ = isCommentLine ⟨d⟩ := by
  unfold isCommentLine
  simp only [show (String.mk (d ++ t)).data = d ++ t from rfl,
    show (String.mk d).data = d from rfl]
  rw [dropWhile_pyspace_append d t hws]
  rcases h : d.dropWhile isPySpace with _ | ⟨x, xs⟩
  · simp [List.isPrefixOf]
  · simp only [List.isEmpty_cons, Bool.false_eq_true, if_false]
    exact isPrefixOf_append_of_disjoint ['-', '-'] (x :: xs) t
      (fun c hc => term_not_in_dashes (List.all_eq_true.mp hterm c hc))

theorem requireTail_append (ys t : List Char) (hws : t.all isPySpace)
    (hterm : t.all isTermChar) :
    requireTail (ys ++ t) = requireTail ys := by
  cases ys with
  | nil =>
    cases t with
    | nil => rfl
    | cons c t2 =>
      have := term_not_paren (List.all_eq_true.mp hterm c (by simp))
      simp [requireTail, this]
  | cons c rs =>
    simp [requireTail, List.all_append, List.all_eq_true.mpr
      (fun c' hc' => List.all_eq_true.mp hws c' hc')]

theorem requireAfterQuote_append (name t : List Char) (hws : t.all isPySpace)
    (hterm : t.all isTermChar) :
    ∀ after : List Char, requireAfterQuote name (after ++ t) = requireAfterQuote name after := by
  intro after
  cases after with
  | nil =>
    cases t with
    | nil => rfl
    | cons c t2 =>
      have := term_not_quote (List.all_eq_true.mp hterm c (by simp))
      simp [requireAfterQuote, this]
  | cons y ys =>
    rw [List.cons_append]
    simp only [requireAfterQuote]
    rw [requireTail_append ys t hws hterm]

theorem requireQuoted_append (t : List Char) (hws : t.all isPySpace)
    (hterm : t.all isTermChar) :
    ∀ R : List Char, requireQuoted (R ++ t) = requireQuoted R := by
  intro R
  cases R with
  | nil =>
    cases t with
    | nil => rfl
    | cons c t2 =>
      have := term_not_quote (List.all_eq_true.mp hterm c (by simp))
      simp [requireQuoted, requireAfterQuote, this]
  | cons q R' =>
    rw [List.cons_append]
    simp only [requireQuoted]
    by_cases hq : isQuote q
    · simp only [hq, if_true]
      by_cases hall : (R'.takeWhile isModChar).length = R'.length
      · have hR' : R'.takeWhile isModChar = R' :=
          (List.takeWhile_prefix isModChar).eq_of_length hall
        have htake : (R' ++ t).takeWhile isModChar = R' := by
          rw [List.takeWhile_append, if_pos (by rw [hR']),
            takeWhile_eq_nil_of_neg
              (fun c hc => term_not_mod (List.all_eq_true.mp hterm c hc)),
            List.append_nil]
        rw [htake, hR', List.drop_left, List.drop_length]
        exact requireAfterQuote_append R' t hws hterm []
      · have htake : (R' ++ t).takeWhile isModChar = R'.takeWhile isModChar := by
          rw [List.takeWhile_append, if_neg hall]
        have hlen : (R'.takeWhile isModChar).length ≤ R'.length :=
          (List.takeWhile_prefix isModChar).length_le
        rw [htake, List.drop_append_of_le_length hlen]
        exact requireAfterQuote_append (R'.takeWhile isModChar) t hws hterm
          (R'.drop (R'.takeWhile isModChar).length)
    · simp [hq]

theorem isRequireLine_append (d t : List Char) (hws : t.all isPySpace)
    (hterm : t.all isTermChar) :
    isRequireLine ⟨d ++ t⟩ = isRequireLine ⟨d⟩ := by
  unfold isRequireLine
  simp only [show (String.mk (d ++ t)).data = d ++ t from rfl,
    show (String.mk d).data = d from rfl]
  rw [dropWhile_pyspace_append d t hws]
  rcases h : d.dropWhile isPySpace with _ | ⟨x, xs⟩
  · simp
  · simp only [List.isEmpty_cons, Bool.false_eq_true, if_false]
    rw [isPrefixOf_append_of_disjoint "require(".data (x :: xs) t
      (fun c hc => term_not_in_require (List.all_eq_true.mp hterm c hc))]
    by_cases hpre : "require(".data.isPrefixOf (x :: xs)
    · simp only [hpre, if_true]
      obtain ⟨R, hR⟩ := List.isPrefixOf_iff_prefix.mp hpre
      rw [← hR, List.append_assoc, show (8 : Nat) = ("require(".data).length from rfl,
        List.drop_left, List.drop_left]
      exact requireQuoted_append t hws hterm R
    · simp [hpre]

theorem isBlankLine_dropLineEnd (l : String) :
    isBlankLine (dropLineEnd l) = isBlankLine l := by
  obtain ⟨t, hd, hws, _⟩ := dropLineEnd_spec l
  have hl : l = ⟨(dropLineEnd l).data ++ t⟩ := String.ext hd
  conv_rhs => rw [hl]
  rw [isBlankLine_append _ t hws]

theorem isCommentLine_dropLineEnd (l : String) :
    isCommentLine (dropLineEnd l) = isCommentLine l := by
  obtain ⟨t, hd, hws, hterm⟩ := dropLineEnd_spec l
  have hl : l = ⟨(dropLineEnd l).data ++ t⟩ := String.ext hd
  conv_rhs => rw [hl]
  rw [isCommentLine_append _ t hws hterm]

theorem isRequireLine_dropLineEnd (l : String) :
    isRequireLine (dropLineEnd l) = isRequireLine l := by
  obtain ⟨t, hd, hws, hterm⟩ := dropLineEnd_spec l
  have hl : l = ⟨(dropLineEnd l).data ++ t⟩ := String.ext hd
  conv_rhs => rw [hl]
  rw [isRequireLine_append _ t hws hterm]

theorem strContains_dropLineEnd (l sub : String) (hne : sub.data ≠ [])
    (hdisj : ∀ c, isTermChar c → c ∉ sub.data) :
    strContains (dropLineEnd l) sub = strContains l sub := by
  obtain ⟨t, hd, _, hterm⟩ := dropLineEnd_spec l
  have hl : l = ⟨(dropLineEnd l).data ++ t⟩ := String.ext hd
  conv_rhs => rw [hl]
  rw [strContains_append sub hne t
    (fun c hc => hdisj c (List.all_eq_true.mp hterm c hc)) _]

theorem blockOpen_dropLineEnd (l : String) :
    strContains (dropLineEnd l) "--[[" = strContains l "--[[" :=
  strContains_dropLineEnd l "--[[" (by decide) (fun _ h => term_not_in_blockOpen h)

theorem blockClose_dropLineEnd (l : String) :
    strContains (dropLineEnd l) "]]" = strContains l "]]" :=
  strContains_dropLineEnd l "]]" (by decide) (fun _ h => term_not_in_blockClose h)

theorem skipLen_map_dropLineEnd (p : String → Bool)
    (hp : ∀ l, p (dropLineEnd l) = p l) (xs : List String) :
    skipLen p (xs.map dropLineEnd) = skipLen p xs := by
  unfold skipLen
  rw [List.takeWhile_map, show p ∘ dropLineEnd = p from funext hp, List.length_map]

theorem drop_map_dropLineEnd (xs : List String) (n : Nat) :
    (xs.map dropLineEnd).drop n = (xs.drop n).map dropLineEnd :=
  (List.map_drop _ _ _).symm

theorem blockSkipLen_map_dropLineEnd (r1 : List String) :
    blockSkipLen (r1.map dropLineEnd) = blockSkipLen r1 := by
  cases r1 with
  | nil => rfl
  | cons l0 r1' =>
    simp only [List.map_cons, blockSkipLen]
    rw [blockOpen_dropLineEnd l0]
    rw [show (dropLineEnd l0 :: r1'.map dropLineEnd) = (l0 :: r1').map dropLineEnd from rfl]
    rw [skipLen_map_dropLineEnd _
      (fun l => by
        show (! strContains (dropLineEnd l) "]]") = (! strContains l "]]")
        rw [blockClose_dropLineEnd l]) (l0 :: r1'), List.length_map]

theorem headerEndIndex_map_dropLineEnd (lines : List String) :
    headerEndIndex (lines.map dropLineEnd) = headerEndIndex lines := by
  simp only [headerEndIndex]
  rw [skipLen_map_dropLineEnd isBlankLine isBlankLine_dropLineEnd lines,
    drop_map_dropLineEnd]
  generalize lines.drop (skipLen isBlankLine lines) = r1
  rw [blockSkipLen_map_dropLineEnd r1, drop_map_dropLineEnd]
  generalize r1.drop (blockSkipLen r1) = r2
  rw [skipLen_map_dropLineEnd isBlankLine isBlankLine_dropLineEnd r2,
    drop_map_dropLineEnd]
  generalize r2.drop (skipLen isBlankLine r2) = r3
  rw [skipLen_map_dropLineEnd isCommentLine isCommentLine_dropLineEnd r3,
    drop_map_dropLineEnd]
  generalize r3.drop (skipLen isCommentLine r3) = r4
  rw [skipLen_map_dropLineEnd isBlankLine isBlankLine_dropLineEnd r4]

theorem collectReqs_map_dropLineEnd (ls : List String) :
    collectReqs (ls.map dropLineEnd) = collectReqs ls := by
  induction ls with
  | nil => rfl
  | cons l ls ih =>
    simp only [List.map_cons, collectReqs, isBlankLine_dropLineEnd l,
      isRequireLine_dropLineEnd l, ih]

theorem isRequireLine_of_blank {l : String} (h : isBlankLine l) :
    isRequireLine l = none := by
  unfold isRequireLine
  rw [List.dropWhile_eq_nil_iff.mpr
    (fun c hc => by simpa using List.all_eq_true.mp h c hc)]
  simp [List.isPrefixOf]

theorem collectReqs_eq_filterMap (ls : List String) :
    collectReqs ls = (ls.takeWhile isReqOrBlank).filterMap isRequireLine := by
  induction ls with
  | nil => rfl
  | cons l ls ih =>
    by_cases hb : isBlankLine l
    · have hro : isReqOrBlank l = true := by simp [isReqOrBlank, hb]
      simp [collectReqs, hb, List.takeWhile_cons, hro,
        List.filterMap_cons, isRequireLine_of_blank hb, ih]
    · rcases hreq : isRequireLine l with _ | m
      · have hro : isReqOrBlank l = false := by simp [isReqOrBlank, hreq, hb]
        simp [collectReqs, hb, hreq, List.takeWhile_cons, hro]
      · have hro : isReqOrBlank l = true := by simp [isReqOrBlank, hreq]
        simp [collectReqs, hb, hreq, List.takeWhile_cons, hro,
          List.filterMap_cons, ih]

theorem join_append (a b : List String) :
    String.join (a ++ b) = String.join a ++ String.join b := by
  apply String.ext
  simp [data_join, String.data_append]

/-- C10: `strip_initial_requires` and the content-level `read_requires`
scan the same region.  With `lines` the kept-terminator line split, `i` the
header end and `run` the contiguous require-or-blank run from `i`:
`read_requires` computes the same header end on the terminator-free split;
the content splits exactly as prefix ++ run ++ suffix; the strip deletes
exactly the run; and the collected identifiers are, in order, those of the
require lines of the run. -/
theorem C10_strip_and_read_scan_same_region (content : String) :
    headerEndIndex (splitlines content)
        = headerEndIndex (splitlinesKeep content) ∧
      content =
        String.join ((splitlinesKeep content).take (headerEndIndex (splitlinesKeep content)))
          ++ String.join (((splitlinesKeep content).drop
                (headerEndIndex (splitlinesKeep content))).takeWhile isReqOrBlank)
          ++ String.join ((splitlinesKeep content).drop
                (headerEndIndex (splitlinesKeep content)
                  + (((splitlinesKeep content).drop
                        (headerEndIndex (splitlinesKeep content))).takeWhile isReqOrBlank).length)) ∧
      strip_initial_requires content =
        String.join ((splitlinesKeep content).take (headerEndIndex (splitlinesKeep content)))
          ++ String.join ((splitlinesKeep content).drop
                (headerEndIndex (splitlinesKeep content)
                  + (((splitlinesKeep content).drop
                        (headerEndIndex (splitlinesKeep content))).takeWhile isReqOrBlank).length)) ∧
      readRequiresContent content =
        (((splitlinesKeep content).drop
            (headerEndIndex (splitlinesKeep content))).takeWhile isReqOrBlank).filterMap
          isRequireLine := by
  set lines := splitlinesKeep content with hlines
  set i := headerEndIndex lines with hi
  set run := (lines.drop i).takeWhile isReqOrBlank with hrun
  have hN : headerEndIndex (splitlines content) = i := by
    rw [splitlines, ← hlines, headerEndIndex_map_dropLineEnd]
  have hsplit3 : lines = lines.take i ++ (run ++ lines.drop (i + run.length)) := by
    have h1 : lines.take i ++ lines.drop i = lines := List.take_append_drop i lines
    have h2 : run ++ (lines.drop i).dropWhile isReqOrBlank = lines.drop i := by
      rw [hrun]
      exact List.takeWhile_append_dropWhile isReqOrBlank (lines.drop i)
    have h3 : (lines.drop i).dropWhile isReqOrBlank = lines.drop (i + run.length) := by
      rw [dropWhile_eq_drop_length isReqOrBlank (lines.drop i), ← hrun, List.drop_drop,
        Nat.add_comm]
    have h4 : lines.drop i = run ++ lines.drop (i + run.length) := by
      rw [← h3]
      exact h2.symm
    conv_lhs => rw [← h1, h4]
  have hcontent : content = String.join (lines.take i) ++ String.join run
      ++ String.join (lines.drop (i + run.length)) := by
    conv_lhs => rw [← join_splitlinesKeep content]
    rw [← hlines]
    conv_lhs => rw [hsplit3]
    rw [join_append, join_append, String.append_assoc]
  refine ⟨hN, hcontent, ?_, ?_⟩
  · simp only [strip_initial_requires]
    rw [← hlines, ← hi, ← hrun]
    by_cases hlt : i < i + run.length
    · rw [if_pos hlt, join_append]
    · have hz : run.length = 0 := by omega
      rw [if_neg hlt, hcontent, hz]
      rw [List.length_eq_zero.mp hz]
      rw [show String.join ([] : List String) = "" from rfl, String.append_empty]
  · simp only [readRequiresContent]
    rw [hN, splitlines, ← hlines, ← List.map_drop, collectReqs_map_dropLineEnd,
      collectReqs_eq_filterMap, ← hrun]

/-! Association-list lemmas for the graph structures. -/

theorem lookupA_eq_none {α : Type} (l : List (Path × α)) (p : Path)
    (h : p ∉ l.map Prod.fst) : lookupA l p = none := by
  induction l with
  | nil => rfl
  | cons q l ih =>
    have h1 : ¬ (q.1 == p) = true := by
      simp only [beq_iff_eq]
      intro he
      exact h (by simp [← he])
    simp only [lookupA, List.find?_cons, h1]
    exact ih (fun hm => h (by simp at hm ⊢; exact Or.inr hm))

theorem lookupA_cons_self {α : Type} (p : Path) (a : α) (l : List (Path × α)) :
    lookupA ((p, a) :: l) p = some a := by
  simp [lookupA, List.find?_cons]

theorem lookupA_cons_ne {α : Type} (q : Path × α) (l : List (Path × α)) (p : Path)
    (h : q.1 ≠ p) : lookupA (q :: l) p = lookupA l p := by
  have h1 : ¬ (q.1 == p) = true := by simpa using h
  simp [lookupA, List.find?_cons, h1]

theorem lookupA_cons_head {α : Type} (q : Path × α) (l : List (Path × α)) :
    lookupA (q :: l) q.1 = some q.2 := by
  simp [lookupA, List.find?_cons]

theorem lookupA_map_const {α : Type} (nodes : List Path) (a : α) (p : Path)
    (h : p ∈ nodes) : lookupA (nodes.map (fun f => (f, a))) p = some a := by
  induction nodes with
  | nil => simp at h
  | cons n ns ih =>
    by_cases hn : n = p
    · subst hn
      simp [lookupA, List.find?_cons]
    · rw [List.map_cons, lookupA_cons_ne _ _ _ hn]
      exact ih (by
        rcases List.mem_cons.mp h with h2 | h2
        · exact absurd h2.symm hn
        · exact h2)

theorem lookupA_isSome_of_mem {α : Type} (l : List (Path × α)) (p : Path)
    (h : p ∈ l.map Prod.fst) : ∃ a, lookupA l p = some a := by
  induction l with
  | nil => simp at h
  | cons q l ih =>
    by_cases hq : q.1 = p
    · exact ⟨q.2, by rw [← hq]; exact lookupA_cons_head q l⟩
    · rw [lookupA_cons_ne _ _ _ hq]
      apply ih
      rcases List.mem_map.mp h with ⟨x, hx, hfst⟩
      rcases List.mem_cons.mp hx with h2 | h2
      · rw [h2] at hfst
        exact absurd hfst hq
      · exact List.mem_map.mpr ⟨x, h2, hfst⟩

theorem lookupA_update {α : Type} (key : Path) (upd : α → α) (l : List (Path × α)) (p : Path) :
    lookupA (l.map (fun q => if q.1 = key then (q.1, upd q.2) else q)) p =
      if p = key then (lookupA l p).map upd else lookupA l p := by
  induction l with
  | nil => simp [lookupA]
  | cons q l ih =>
    by_cases hp : q.1 = p
    · subst hp
      by_cases hk : q.1 = key
      · rw [List.map_cons, if_pos hk]
        rw [show lookupA (((q.1, upd q.2)) :: l.map (fun q => if q.1 = key then (q.1, upd q.2) else q)) q.1
            = some (upd q.2) from lookupA_cons_head _ _]
        rw [lookupA_cons_head q l, if_pos hk]
        rfl
      · rw [List.map_cons, if_neg hk]
        rw [show lookupA (q :: l.map (fun q => if q.1 = key then (q.1, upd q.2) else q)) q.1
            = some q.2 from lookupA_cons_head _ _]
        rw [lookupA_cons_head q l, if_neg hk]
    · rw [List.map_cons]
      have hfst : (if q.1 = key then (q.1, upd q.2) else q).1 = q.1 := by
        by_cases hk : q.1 = key <;> simp [hk]
      rw [lookupA_cons_ne _ _ _ (by rw [hfst]; exact hp), lookupA_cons_ne q l p hp]
      exact ih

theorem keys_update {α : Type} (key : Path) (upd : α → α) (l : List (Path × α)) :
    (l.map (fun q => if q.1 = key then (q.1, upd q.2) else q)).map Prod.fst = l.map Prod.fst := by
  rw [List.map_map]
  apply List.map_congr_left
  intro q _
  by_cases hk : q.1 = key <;> simp [hk]

theorem lookupA_addDependent (E : Edges) (dep f p : Path) :
    lookupA (addDependent E dep f) p =
      if p = dep then (lookupA E p).map (fun ds => ds ++ [f]) else lookupA E p :=
  lookupA_update dep (fun ds => ds ++ [f]) E p

theorem keys_addDependent (E : Edges) (dep f : Path) :
    (addDependent E dep f).map Prod.fst = E.map Prod.fst :=
  keys_update dep (fun ds => ds ++ [f]) E

theorem lookupA_incIndeg (I : Indeg) (f p : Path) :
    lookupA (incIndeg I f) p =
      if p = f then (lookupA I p).map (fun d => d + 1) else lookupA I p :=
  lookupA_update f (fun d => d + 1) I p

theorem keys_incIndeg (I : Indeg) (f : Path) :
    (incIndeg I f).map Prod.fst = I.map Prod.fst :=
  keys_update f (fun d => d + 1) I

theorem lookupA_decIndeg (I : Indeg) (v p : Path) :
    lookupA (decIndeg I v) p =
      if p = v then (lookupA I p).map (fun d => d - 1) else lookupA I p :=
  lookupA_update v (fun d => d - 1) I p

theorem keys_decIndeg (I : Indeg) (v : Path) :
    (decIndeg I v).map Prod.fst = I.map Prod.fst :=
  keys_update v (fun d => d - 1) I

theorem depsOf_addDependent (E : Edges) (dep f p : Path) (hdep : dep ∈ E.map Prod.fst) :
    depsOf (addDependent E dep f) p =
      if p = dep then depsOf E p ++ [f] else depsOf E p := by
  unfold depsOf
  rw [lookupA_addDependent]
  by_cases hp : p = dep
  · subst hp
    obtain ⟨ds, hds⟩ := lookupA_isSome_of_mem E p hdep
    simp [hds]
  · simp [hp]

theorem countP_flip_one {p p' : Path → Bool} :
    ∀ (keys : List Path) (dep : Path), keys.Nodup → dep ∈ keys →
      (∀ u ∈ keys, u ≠ dep → p' u = p u) → p dep = false → p' dep = true →
      keys.countP p' = keys.countP p + 1 := by
  intro keys
  induction keys with
  | nil => intro dep _ h; simp at h
  | cons k ks ih =>
    intro dep hnd hmem hagree hold hnew
    rcases List.mem_cons.mp hmem with heq | hmem'
    · subst heq
      have hks : ∀ u ∈ ks, p' u = p u := by
        intro u hu
        have : u ≠ dep := by
          intro he
          subst he
          exact (List.nodup_cons.mp hnd).1 hu
        exact hagree u (List.mem_cons_of_mem _ hu) this
      rw [List.countP_cons, List.countP_cons, hold, hnew]
      rw [List.countP_congr (fun u hu => by rw [hks u hu])]
      simp
    · have hkdep : k ≠ dep := by
        intro he
        subst he
        exact (List.nodup_cons.mp hnd).1 hmem'
      rw [List.countP_cons, List.countP_cons, hagree k (by simp) hkdep,
        ih dep (List.nodup_cons.mp hnd).2 hmem'
          (fun u hu hne => hagree u (List.mem_cons_of_mem _ hu) hne) hold hnew]
      omega

theorem inDegOf_addDependent_self (E : Edges) (dep f : Path)
    (hnd : (E.map Prod.fst).Nodup) (hdep : dep ∈ E.map Prod.fst)
    (hnotin : f ∉ depsOf E dep) :
    inDegOf (addDependent E dep f) f = inDegOf E f + 1 := by
  unfold inDegOf
  rw [keys_addDependent]
  apply countP_flip_one (E.map Prod.fst) dep hnd hdep
  · intro u _ hne
    rw [depsOf_addDependent E dep f u hdep, if_neg hne]
  · simpa using hnotin
  · rw [depsOf_addDependent E dep f dep hdep, if_pos rfl]
    simp

theorem inDegOf_addDependent_other (E : Edges) (dep f g : Path)
    (hdep : dep ∈ E.map Prod.fst) (hg : g ≠ f) :
    inDegOf (addDependent E dep f) g = inDegOf E g := by
  unfold inDegOf
  rw [keys_addDependent]
  apply List.countP_congr
  intro u _
  have h1 : (depsOf (addDependent E dep f) u).contains g = (depsOf E u).contains g := by
    rw [depsOf_addDependent E dep f u hdep]
    by_cases hu : u = dep
    · rw [if_pos hu]
      simp [hg]
    · rw [if_neg hu]
  show (depsOf (addDependent E dep f) u).contains g = true
      ↔ (depsOf E u).contains g = true
  rw [h1]

theorem lookupA_eq_of_mem_nodup {α : Type} (l : List (Path × α)) (k : Path) (a : α)
    (hnd : (l.map Prod.fst).Nodup) (h : (k, a) ∈ l) : lookupA l k = some a := by
  induction l with
  | nil => simp at h
  | cons q l ih =>
    rcases List.mem_cons.mp h with heq | hmem
    · rw [← heq]
      exact lookupA_cons_head (k, a) l
    · have h2 : (q.1 :: l.map Prod.fst).Nodup := by simpa using hnd
      have hk : q.1 ≠ k := by
        intro he
        have h1 : k ∈ l.map Prod.fst := List.mem_map.mpr ⟨(k, a), hmem, rfl⟩
        exact (List.nodup_cons.mp h2).1 (he.symm ▸ h1)
      rw [lookupA_cons_ne q l k hk]
      exact ih (List.nodup_cons.mp h2).2 hmem

theorem addReq_eq (fs : FS) (files : List Path) (roots : List String)
    (header : Option Path) (st : Edges × Indeg) (f : Path) (mod : String) :
    addReq fs files roots header st f mod =
      match resolveGuard fs files roots header mod with
      | none => st
      | some dep =>
        if f ∈ depsOf st.1 dep then st
        else (addDependent st.1 dep f, incIndeg st.2 f) := by
  unfold addReq resolveGuard
  rcases module_to_path fs mod roots with _ | dep
  · rfl
  · dsimp only
    by_cases hg : dep ∈ files ∧ header ≠ some dep
    · rw [if_pos hg, if_pos hg]
    · rw [if_neg hg, if_neg hg]

theorem resolveGuard_mem_nodes (fs : FS) (files : List Path) (roots : List String)
    (header : Option Path) (mod : String) (dep : Path)
    (h : resolveGuard fs files roots header mod = some dep) :
    dep ∈ files.filter (fun f => header != some f) := by
  unfold resolveGuard at h
  rcases hm : module_to_path fs mod roots with _ | d <;> rw [hm] at h
  · simp at h
  · dsimp only at h
    by_cases hg : d ∈ files ∧ header ≠ some d
    · rw [if_pos hg] at h
      cases h
      exact List.mem_filter.mpr ⟨hg.1, by simpa using hg.2⟩
    · rw [if_neg hg] at h
      simp at h

theorem addReq_foldl_spec (fs : FS) (files : List Path) (roots : List String)
    (header : Option Path) (nodes : List Path)
    (hnodes : nodes = files.filter (fun f => header != some f))
    (hnd : nodes.Nodup) (f : Path) (hf : f ∈ nodes) :
    ∀ (mods : List String) (E : Edges) (I : Indeg),
      E.map Prod.fst = nodes → I.map Prod.fst = nodes →
      (∀ v ∈ nodes, lookupA I v = some ((inDegOf E v : Int))) →
      (∀ pr ∈ E, pr.2.Nodup ∧ ∀ v ∈ pr.2, v ∈ nodes) →
      ∀ E' I', mods.foldl (fun st mod => addReq fs files roots header st f mod) (E, I) = (E', I') →
        E'.map Prod.fst = nodes ∧ I'.map Prod.fst = nodes ∧
        (∀ v ∈ nodes, lookupA I' v = some ((inDegOf E' v : Int))) ∧
        (∀ pr ∈ E', pr.2.Nodup ∧ ∀ v ∈ pr.2, v ∈ nodes) ∧
        (∀ dep, f ∈ depsOf E' dep ↔
          (f ∈ depsOf E dep ∨ dep ∈ mods.filterMap (resolveGuard fs files roots header))) ∧
        (∀ dep g, g ≠ f → (g ∈ depsOf E' dep ↔ g ∈ depsOf E dep)) := by
  intro mods
  induction mods with
  | nil =>
    intro E I hkE hkI hcouple hds E' I' heq
    rw [List.foldl_nil] at heq
    cases heq
    exact ⟨hkE, hkI, hcouple, hds, fun dep => by simp, fun dep g _ => Iff.rfl⟩
  | cons mod mods ih =>
    intro E I hkE hkI hcouple hds E' I' heq
    rw [List.foldl_cons] at heq
    rcases hrg : resolveGuard fs files roots header mod with _ | dep
    · have hstep : addReq fs files roots header (E, I) f mod = (E, I) := by
        rw [addReq_eq, hrg]
      rw [hstep] at heq
      obtain ⟨c1, c2, c3, c4, c5, c6⟩ := ih E I hkE hkI hcouple hds E' I' heq
      refine ⟨c1, c2, c3, c4, ?_, c6⟩
      intro dep0
      rw [c5 dep0]
      have hfm : (mod :: mods).filterMap (resolveGuard fs files roots header)
          = mods.filterMap (resolveGuard fs files roots header) := by
        simp [List.filterMap_cons, hrg]
      rw [hfm]
    · have hdepn : dep ∈ nodes :=
        hnodes ▸ resolveGuard_mem_nodes fs files roots header mod dep hrg
      have hfm : (mod :: mods).filterMap (resolveGuard fs files roots header)
          = dep :: mods.filterMap (resolveGuard fs files roots header) := by
        simp [List.filterMap_cons, hrg]
      by_cases hin : f ∈ depsOf E dep
      · have hstep : addReq fs files roots header (E, I) f mod = (E, I) := by
          rw [addReq_eq, hrg]
          dsimp only
          rw [if_pos hin]
        rw [hstep] at heq
        obtain ⟨c1, c2, c3, c4, c5, c6⟩ := ih E I hkE hkI hcouple hds E' I' heq
        refine ⟨c1, c2, c3, c4, ?_, c6⟩
        intro dep0
        rw [c5 dep0, hfm]
        simp only [List.mem_cons]
        constructor
        · rintro (h | h)
          · exact Or.inl h
          · exact Or.inr (Or.inr h)
        · rintro (h | h | h)
          · exact Or.inl h
          · rw [h]
            exact Or.inl hin
          · exact Or.inr h
      · have hstep : addReq fs files roots header (E, I) f mod
            = (addDependent E dep f, incIndeg I f) := by
          rw [addReq_eq, hrg]
          dsimp only
          rw [if_neg hin]
        rw [hstep] at heq
        have hkE1 : (addDependent E dep f).map Prod.fst = nodes := by
          rw [keys_addDependent, hkE]
        have hkI1 : (incIndeg I f).map Prod.fst = nodes := by
          rw [keys_incIndeg, hkI]
        have hdepk : dep ∈ E.map Prod.fst := by rw [hkE]; exact hdepn
        have hndk : (E.map Prod.fst).Nodup := by rw [hkE]; exact hnd
        have hcouple1 : ∀ v ∈ nodes,
            lookupA (incIndeg I f) v = some ((inDegOf (addDependent E dep f) v : Int)) := by
          intro v hv
          rw [lookupA_incIndeg]
          by_cases hvf : v = f
          · rw [if_pos hvf, hvf, hcouple f hf,
              inDegOf_addDependent_self E dep f hndk hdepk hin]
            simp only [Option.map_some']
            norm_cast
          · rw [if_neg hvf, hcouple v hv, inDegOf_addDependent_other E dep f v hdepk hvf]
        have hds1 : ∀ pr ∈ addDependent E dep f, pr.2.Nodup ∧ ∀ v ∈ pr.2, v ∈ nodes := by
          intro pr hpr
          rcases List.mem_map.mp hpr with ⟨pr0, hpr0, hmap⟩
          obtain ⟨hnd0, hmem0⟩ := hds pr0 hpr0
          by_cases hp0 : pr0.1 = dep
          · have hpr0eq : (dep, pr0.2) = pr0 := by rw [← hp0]
            have hdeq : depsOf E dep = pr0.2 := by
              unfold depsOf
              rw [lookupA_eq_of_mem_nodup E dep pr0.2 hndk (hpr0eq ▸ hpr0)]
              rfl
            have hfd : f ∉ pr0.2 := by rw [← hdeq]; exact hin
            rw [← hmap, if_pos hp0]
            constructor
            · exact hnd0.append (List.nodup_singleton f)
                (fun a ha hb => hfd ((List.mem_singleton.mp hb) ▸ ha))
            · intro v hv
              rcases List.mem_append.mp hv with hv | hv
              · exact hmem0 v hv
              · rw [List.mem_singleton.mp hv]
                exact hf
          · rw [← hmap, if_neg hp0]
            exact ⟨hnd0, hmem0⟩
        obtain ⟨c1, c2, c3, c4, c5, c6⟩ :=
          ih (addDependent E dep f) (incIndeg I f) hkE1 hkI1 hcouple1 hds1 E' I' heq
        have hdA : ∀ x, f ∈ depsOf (addDependent E dep f) x ↔ (x = dep ∨ f ∈ depsOf E x) := by
          intro x
          rw [depsOf_addDependent E dep f x hdepk]
          by_cases hx : x = dep
          · rw [if_pos hx]
            simp [hx]
          · rw [if_neg hx]
            simp [hx]
        refine ⟨c1, c2, c3, c4, ?_, ?_⟩
        · intro dep0
          rw [c5 dep0, hdA dep0, hfm]
          simp only [List.mem_cons]
          tauto
        · intro dep0 g hg
          rw [c6 dep0 g hg, depsOf_addDependent E dep f dep0 hdepk]
          by_cases hx : dep0 = dep
          · rw [if_pos hx]
            simp [hg]
          · rw [if_neg hx]

theorem build_graph_foldl_spec (fs : FS) (files : List Path) (roots : List String)
    (header : Option Path) (nodes : List Path)
    (hnodes : nodes = files.filter (fun f => header != some f))
    (hnd : nodes.Nodup) (hfilesnd : files.Nodup) :
    ∀ (todo done : List Path) (E : Edges) (I : Indeg),
      files = done ++ todo →
      E.map Prod.fst = nodes → I.map Prod.fst = nodes →
      (∀ v ∈ nodes, lookupA I v = some ((inDegOf E v : Int))) →
      (∀ pr ∈ E, pr.2.Nodup ∧ ∀ v ∈ pr.2, v ∈ nodes) →
      (∀ dep g, g ∈ depsOf E dep ↔
        (g ∈ done ∧ header ≠ some g ∧ dep ∈ resolvedDeps fs files roots header g)) →
      ∀ E' I',
        todo.foldl
          (fun st f =>
            if header = some f then st
            else (read_requires fs f).foldl
              (fun st2 mod => addReq fs files roots header st2 f mod) st)
          (E, I) = (E', I') →
        E'.map Prod.fst = nodes ∧ I'.map Prod.fst = nodes ∧
        (∀ v ∈ nodes, lookupA I' v = some ((inDegOf E' v : Int))) ∧
        (∀ pr ∈ E', pr.2.Nodup ∧ ∀ v ∈ pr.2, v ∈ nodes) ∧
        (∀ dep g, g ∈ depsOf E' dep ↔
          (g ∈ done ++ todo ∧ header ≠ some g ∧
            dep ∈ resolvedDeps fs files roots header g)) := by
  intro todo
  induction todo with
  | nil =>
    intro done E I _ hkE hkI hcouple hds hmem E' I' heq
    rw [List.foldl_nil] at heq
    cases heq
    exact ⟨hkE, hkI, hcouple, hds, fun dep g => by rw [hmem dep g, List.append_nil]⟩
  | cons fcur todo' ih =>
    intro done E I hsplit hkE hkI hcouple hds hmem E' I' heq
    rw [List.foldl_cons] at heq
    have hsplit' : files = (done ++ [fcur]) ++ todo' := by
      rw [hsplit, List.append_assoc, List.singleton_append]
    have happ : (done ++ [fcur]) ++ todo' = done ++ fcur :: todo' := by
      rw [List.append_assoc, List.singleton_append]
    by_cases hh : header = some fcur
    · rw [if_pos hh] at heq
      have hmem' : ∀ dep g, g ∈ depsOf E dep ↔
          (g ∈ done ++ [fcur] ∧ header ≠ some g ∧
            dep ∈ resolvedDeps fs files roots header g) := by
        intro dep g
        rw [hmem dep g]
        by_cases hgf : g = fcur
        · rw [hgf]
          have : ¬ header ≠ some fcur := by simpa using hh
          tauto
        · have : g ∈ done ++ [fcur] ↔ g ∈ done := by simp [hgf]
          tauto
      obtain ⟨c1, c2, c3, c4, c5⟩ :=
        ih (done ++ [fcur]) E I hsplit' hkE hkI hcouple hds hmem' E' I' heq
      refine ⟨c1, c2, c3, c4, ?_⟩
      intro dep g
      rw [c5 dep g, happ]
    · rw [if_neg hh] at heq
      have hfcur_files : fcur ∈ files := by rw [hsplit]; simp
      have hfcur_nodes : fcur ∈ nodes := by
        rw [hnodes]
        exact List.mem_filter.mpr ⟨hfcur_files, by simpa using hh⟩
      have hfcur_notdone : fcur ∉ done := by
        intro hc
        have hnda : (done ++ fcur :: todo').Nodup := hsplit ▸ hfilesnd
        exact (List.disjoint_of_nodup_append hnda) hc (by simp)
      obtain ⟨E1, I1, hE1⟩ : ∃ E1 I1,
          (read_requires fs fcur).foldl
            (fun st2 mod => addReq fs files roots header st2 fcur mod) (E, I) = (E1, I1) :=
        ⟨_, _, rfl⟩
      rw [hE1] at heq
      obtain ⟨k1, k2, k3, k4, k5, k6⟩ :=
        addReq_foldl_spec fs files roots header nodes hnodes hnd fcur hfcur_nodes
          (read_requires fs fcur) E I hkE hkI hcouple hds E1 I1 hE1
      have hmem1 : ∀ dep g, g ∈ depsOf E1 dep ↔
          (g ∈ done ++ [fcur] ∧ header ≠ some g ∧
            dep ∈ resolvedDeps fs files roots header g) := by
        intro dep g
        by_cases hgf : g = fcur
        · rw [hgf, k5 dep]
          have h1 : fcur ∈ depsOf E dep ↔ False := by
            rw [hmem dep fcur]
            tauto
          have h2 : fcur ∈ done ++ [fcur] := by simp
          have h3 : header ≠ some fcur := hh
          rw [h1]
          unfold resolvedDeps
          tauto
        · rw [k6 dep g hgf, hmem dep g]
          have : g ∈ done ++ [fcur] ↔ g ∈ done := by simp [hgf]
          tauto
      obtain ⟨c1, c2, c3, c4, c5⟩ :=
        ih (done ++ [fcur]) E1 I1 hsplit' k1 k2 k3 k4 hmem1 E' I' heq
      refine ⟨c1, c2, c3, c4, ?_⟩
      intro dep g
      rw [c5 dep g, happ]

theorem build_graph_spec (fs : FS) (files : List Path) (roots : List String)
    (header : Option Path) (hfilesnd : files.Nodup) :
    ∀ E I, build_graph fs files roots header = (E, I) →
      E.map Prod.fst = files.filter (fun f => header != some f) ∧
      I.map Prod.fst = files.filter (fun f => header != some f) ∧
      (∀ v ∈ files.filter (fun f => header != some f),
        lookupA I v = some ((inDegOf E v : Int))) ∧
      (∀ pr ∈ E, pr.2.Nodup ∧ ∀ v ∈ pr.2, v ∈ files.filter (fun f => header != some f)) ∧
      (∀ dep g, g ∈ depsOf E dep ↔
        (g ∈ files.filter (fun f => header != some f) ∧
          dep ∈ resolvedDeps fs files roots header g)) := by
  intro E I heq
  set nodes := files.filter (fun f => header != some f) with hnodes
  have hnd : nodes.Nodup := hfilesnd.filter _
  have hkE0 : (nodes.map (fun f => (f, ([] : List Path)))).map Prod.fst = nodes := by
    rw [List.map_map,
      show (Prod.fst ∘ fun (f : Path) => (f, ([] : List Path))) = id from rfl,
      List.map_id]
  have hkI0 : (nodes.map (fun f => (f, (0 : Int)))).map Prod.fst = nodes := by
    rw [List.map_map,
      show (Prod.fst ∘ fun (f : Path) => (f, (0 : Int))) = id from rfl,
      List.map_id]
  have hdeps0 : ∀ u, depsOf (nodes.map (fun f => (f, ([] : List Path)))) u = [] := by
    intro u
    unfold depsOf
    by_cases hu : u ∈ nodes
    · rw [lookupA_map_const nodes ([] : List Path) u hu]
      rfl
    · rw [lookupA_eq_none _ u (by rw [hkE0]; exact hu)]
      rfl
  have hcouple0 : ∀ v ∈ nodes,
      lookupA (nodes.map (fun f => (f, (0 : Int)))) v
        = some ((inDegOf (nodes.map (fun f => (f, ([] : List Path)))) v : Int)) := by
    intro v hv
    rw [lookupA_map_const nodes (0 : Int) v hv]
    have : inDegOf (nodes.map (fun f => (f, ([] : List Path)))) v = 0 := by
      unfold inDegOf
      rw [List.countP_eq_zero.mpr]
      intro u _
      rw [hdeps0 u]
      simp
    rw [this]
    rfl
  have hds0 : ∀ pr ∈ nodes.map (fun f => (f, ([] : List Path))),
      pr.2.Nodup ∧ ∀ v ∈ pr.2, v ∈ nodes := by
    intro pr hpr
    rcases List.mem_map.mp hpr with ⟨f, _, hmap⟩
    rw [← hmap]
    exact ⟨List.nodup_nil, by simp⟩
  have hmem0 : ∀ dep g, g ∈ depsOf (nodes.map (fun f => (f, ([] : List Path)))) dep ↔
      (g ∈ ([] : List Path) ∧ header ≠ some g ∧
        dep ∈ resolvedDeps fs files roots header g) := by
    intro dep g
    rw [hdeps0 dep]
    simp
  have hmain := build_graph_foldl_spec fs files roots header nodes hnodes hnd hfilesnd
    files [] (nodes.map (fun f => (f, ([] : List Path))))
    (nodes.map (fun f => (f, (0 : Int)))) (by simp) hkE0 hkI0 hcouple0 hds0 hmem0 E I
    (by simpa [build_graph] using heq)
  obtain ⟨c1, c2, c3, c4, c5⟩ := hmain
  refine ⟨c1, c2, c3, c4, ?_⟩
  intro dep g
  rw [c5 dep g]
  have : g ∈ nodes ↔ (g ∈ files ∧ header ≠ some g) := by
    rw [hnodes]
    simp [List.mem_filter]
  simp only [List.nil_append]
  tauto

theorem countP_mem_eq_toFinset_card (nodes L : List Path) (hnd : nodes.Nodup)
    (hsub : ∀ x ∈ L, x ∈ nodes) :
    nodes.countP (fun u => decide (u ∈ L)) = L.toFinset.card := by
  rw [List.countP_eq_length_filter]
  rw [← List.toFinset_card_of_nodup (hnd.filter _)]
  congr 1
  apply Finset.ext
  intro x
  simp only [List.mem_toFinset, List.mem_filter, decide_eq_true_eq]
  constructor
  · rintro ⟨_, hx⟩
    exact hx
  · intro hx
    exact ⟨hsub x hx, hx⟩

/-- C4: `build_graph` records no duplicate edge between the same ordered
pair (every dependent set is duplicate-free), the dependents of `dep`
are exactly the non-header files whose resolved in-set dependencies
include `dep`, and every node's indegree counter equals its number of
distinct resolved in-set dependencies. -/
theorem C4_no_duplicate_edges_indeg_counts_distinct_deps (fs : FS) (files : List Path)
    (roots : List String) (header : Option Path) (hfilesnd : files.Nodup)
    (E : Edges) (I : Indeg) (heq : build_graph fs files roots header = (E, I)) :
    (∀ pr ∈ E, pr.2.Nodup) ∧
    (∀ dep f, f ∈ depsOf E dep ↔
      (f ∈ files.filter (fun g => header != some g) ∧
        dep ∈ resolvedDeps fs files roots header f)) ∧
    (∀ f ∈ files.filter (fun g => header != some g),
      lookupA I f = some (((resolvedDeps fs files roots header f).toFinset.card : Int))) := by
  obtain ⟨c1, _, c3, c4, c5⟩ := build_graph_spec fs files roots header hfilesnd E I heq
  refine ⟨fun pr hpr => (c4 pr hpr).1, fun dep f => c5 dep f, ?_⟩
  intro f hf
  rw [c3 f hf]
  have hnd : (files.filter (fun g => header != some g)).Nodup := hfilesnd.filter _
  have hsub : ∀ x ∈ resolvedDeps fs files roots header f,
      x ∈ files.filter (fun g => header != some g) := by
    intro x hx
    rcases List.mem_filterMap.mp hx with ⟨mod, _, hmod⟩
    exact resolveGuard_mem_nodes fs files roots header mod x hmod
  have hcongr : inDegOf E f = (resolvedDeps fs files roots header f).toFinset.card := by
    unfold inDegOf
    rw [c1]
    rw [List.countP_congr (fun u _ => by
      show (depsOf E u).contains f = true ↔ decide (f ∈ depsOf E u) = true
      simp)]
    rw [List.countP_congr (fun u hu => by
      show decide (f ∈ depsOf E u) = true ↔ decide (u ∈ resolvedDeps fs files roots header f) = true
      simp only [decide_eq_true_eq]
      rw [c5 u f]
      exact ⟨fun h => h.2, fun h => ⟨hf, h⟩⟩)]
    exact countP_mem_eq_toFinset_card _ _ hnd hsub
  rw [hcongr]

theorem C4_witness :
    resolvedDeps fsDupReq ["src/a.lua", "src/b.lua"] ["src"] none "src/b.lua"
        = ["src/a.lua", "src/a.lua"] ∧
      lookupA (build_graph fsDupReq ["src/a.lua", "src/b.lua"] ["src"] none).2 "src/b.lua"
        = some (((resolvedDeps fsDupReq ["src/a.lua", "src/b.lua"] ["src"] none
            "src/b.lua").toFinset.card : Int)) :=
  ⟨by decide,
    (C4_no_duplicate_edges_indeg_counts_distinct_deps fsDupReq
        ["src/a.lua", "src/b.lua"] ["src"] none (by decide) _ _ rfl).2.2
      "src/b.lua" (by decide)⟩

/-! The Kahn-phase invariant and its preservation. -/

theorem depsOf_mem_keys (E : Edges) (u v : Path) (h : v ∈ depsOf E u) :
    u ∈ E.map Prod.fst := by
  by_contra hu
  rw [depsOf, lookupA_eq_none E u hu] at h
  simp at h

theorem contains_iff_mem (l : List Path) (a : Path) : l.contains a = true ↔ a ∈ l := by
  simp

theorem processed_lt_of_missing (E : Edges) (hndk : (E.map Prod.fst).Nodup)
    (v : Path) (out : List Path) (hout : out.Nodup)
    (houtMem : ∀ x ∈ out, x ∈ E.map Prod.fst)
    (w : Path) (hw : v ∈ depsOf E w) (hwout : w ∉ out) :
    out.countP (fun u => (depsOf E u).contains v) < inDegOf E v := by
  have hwk : w ∈ E.map Prod.fst := depsOf_mem_keys E w v hw
  set p : Path → Bool := fun u => (depsOf E u).contains v with hp
  have hpw : p w = true := (contains_iff_mem _ v).mpr hw
  unfold inDegOf
  rw [← hp, List.countP_eq_length_filter, List.countP_eq_length_filter]
  have hAnd : (out.filter p).Nodup := hout.filter p
  have hBnd : ((E.map Prod.fst).filter p).Nodup := hndk.filter p
  have hwB : w ∈ (E.map Prod.fst).filter p := List.mem_filter.mpr ⟨hwk, hpw⟩
  have hwB2 : w ∈ ((E.map Prod.fst).filter p).toFinset := List.mem_toFinset.mpr hwB
  have hsub : (out.filter p).toFinset ⊆ ((E.map Prod.fst).filter p).toFinset.erase w := by
    intro x hx
    rw [List.mem_toFinset, List.mem_filter] at hx
    refine Finset.mem_erase.mpr ⟨?_, ?_⟩
    · intro he
      rw [he] at hx
      exact hwout hx.1
    · rw [List.mem_toFinset, List.mem_filter]
      exact ⟨houtMem x hx.1, hx.2⟩
  have h1 : (out.filter p).toFinset.card ≤
      (((E.map Prod.fst).filter p).toFinset.erase w).card := Finset.card_le_card hsub
  have h2 := Finset.card_erase_of_mem hwB2
  have h3 : 0 < ((E.map Prod.fst).filter p).toFinset.card := Finset.card_pos.mpr ⟨w, hwB2⟩
  rw [← List.toFinset_card_of_nodup hAnd, ← List.toFinset_card_of_nodup hBnd]
  omega

theorem inDeg_le_processed_of_all (E : Edges) (hndk : (E.map Prod.fst).Nodup)
    (v : Path) (out : List Path) (hout : out.Nodup)
    (hall : ∀ w, v ∈ depsOf E w → w ∈ out) :
    inDegOf E v ≤ out.countP (fun u => (depsOf E u).contains v) := by
  set p : Path → Bool := fun u => (depsOf E u).contains v with hp
  unfold inDegOf
  rw [← hp, List.countP_eq_length_filter, List.countP_eq_length_filter]
  have hAnd : (out.filter p).Nodup := hout.filter p
  have hBnd : ((E.map Prod.fst).filter p).Nodup := hndk.filter p
  have hsub : ((E.map Prod.fst).filter p).toFinset ⊆ (out.filter p).toFinset := by
    intro x hx
    rw [List.mem_toFinset, List.mem_filter] at hx
    rw [List.mem_toFinset, List.mem_filter]
    refine ⟨hall x ?_, hx.2⟩
    exact (contains_iff_mem _ v).mp hx.2
  rw [← List.toFinset_card_of_nodup hAnd, ← List.toFinset_card_of_nodup hBnd]
  exact Finset.card_le_card hsub

theorem sum_toNat_decIndeg_le (ind : Indeg) (v : Path) :
    ((decIndeg ind v).map (fun x => x.2.toNat)).sum ≤ (ind.map (fun x => x.2.toNat)).sum := by
  induction ind with
  | nil => simp [decIndeg]
  | cons pr rest ih =>
    simp only [decIndeg, List.map_cons, List.sum_cons] at ih ⊢
    have hhead : (if pr.1 = v then (pr.1, pr.2 - 1) else pr).2.toNat ≤ pr.2.toNat := by
      by_cases h : pr.1 = v
      · rw [if_pos h]
        simp only
        omega
      · rw [if_neg h]
    omega

theorem sum_toNat_decIndeg_zero (ind : Indeg) (v : Path)
    (h : lookupA (decIndeg ind v) v = some 0) :
    ((decIndeg ind v).map (fun x => x.2.toNat)).sum + 1 ≤ (ind.map (fun x => x.2.toNat)).sum := by
  induction ind with
  | nil => simp [decIndeg, lookupA] at h
  | cons pr rest ih =>
    by_cases hv : pr.1 = v
    · have hlook : lookupA (decIndeg (pr :: rest) v) v = some (pr.2 - 1) := by
        simp only [decIndeg, List.map_cons, if_pos hv]
        exact hv ▸ lookupA_cons_head (pr.1, pr.2 - 1) _
      rw [hlook] at h
      have hpr : pr.2 = 1 := by
        have := Option.some.inj h
        omega
      simp only [decIndeg, List.map_cons, List.sum_cons, if_pos hv, hpr]
      have := sum_toNat_decIndeg_le rest v
      simp only [decIndeg] at this
      omega
    · have hlook : lookupA (decIndeg (pr :: rest) v) v = lookupA (decIndeg rest v) v := by
        simp only [decIndeg, List.map_cons, if_neg hv]
        exact lookupA_cons_ne pr _ v hv
      rw [hlook] at h
      simp only [decIndeg, List.map_cons, List.sum_cons, if_neg hv]
      have := ih h
      simp only [decIndeg] at this
      omega

theorem processDep_measure (s : List Path × Indeg) (v : Path) :
    kahnMeasure (processDep s v).1 (processDep s v).2 ≤ kahnMeasure s.1 s.2 := by
  unfold processDep kahnMeasure
  by_cases h : lookupA (decIndeg s.2 v) v = some 0
  · rw [if_pos h]
    simp only
    have hlen : (sortK (s.1 ++ [v])).length = s.1.length + 1 := by
      rw [sortK, List.length_insertionSort, List.length_append]
      rfl
    have hsum := sum_toNat_decIndeg_zero s.2 v h
    omega
  · rw [if_neg h]
    simp only
    have := sum_toNat_decIndeg_le s.2 v
    omega

theorem foldl_processDep_measure (ds : List Path) :
    ∀ q ind, kahnMeasure (ds.foldl processDep (q, ind)).1 (ds.foldl processDep (q, ind)).2
      ≤ kahnMeasure q ind := by
  induction ds with
  | nil => intro q ind; simp
  | cons v ds ih =>
    intro q ind
    rw [List.foldl_cons]
    calc kahnMeasure (ds.foldl processDep (processDep (q, ind) v)).1
          (ds.foldl processDep (processDep (q, ind) v)).2
        ≤ kahnMeasure (processDep (q, ind) v).1 (processDep (q, ind) v).2 := by
          have := ih (processDep (q, ind) v).1 (processDep (q, ind) v).2
          simpa using this
      _ ≤ kahnMeasure q ind := processDep_measure (q, ind) v

theorem lookupA_mem {α : Type} (l : List (Path × α)) (k : Path) (a : α)
    (h : lookupA l k = some a) : (k, a) ∈ l := by
  unfold lookupA at h
  rcases Option.map_eq_some'.mp h with ⟨pr, hfind, hsnd⟩
  have hmem := List.mem_of_find?_eq_some hfind
  have hfst : pr.1 = k := by simpa using List.find?_some hfind
  have : (k, a) = pr := by
    rw [← hfst, ← hsnd]
  rw [this]
  exact hmem

theorem depsOf_spec (E : Edges)
    (hdeps : ∀ pr ∈ E, pr.2.Nodup ∧ ∀ x ∈ pr.2, x ∈ E.map Prod.fst) (u : Path) :
    (depsOf E u).Nodup ∧ ∀ x ∈ depsOf E u, x ∈ E.map Prod.fst := by
  unfold depsOf
  rcases hl : lookupA E u with _ | ds
  · simp
  · have := hdeps (u, ds) (lookupA_mem E u ds hl)
    simpa using this

theorem append_singleton_decomp {α : Type} (l pre suf : List α) (a v : α)
    (h : l ++ [a] = pre ++ v :: suf) :
    (pre = l ∧ v = a ∧ suf = []) ∨ ∃ s2, suf = s2 ++ [a] ∧ l = pre ++ v :: s2 := by
  rcases List.eq_nil_or_concat suf with hs | ⟨s2, b, hs⟩
  · subst hs
    left
    have hlen : l.length = pre.length := by
      have := congrArg List.length h
      simp at this
      omega
    have := List.append_inj h (by simpa using hlen)
    exact ⟨this.1.symm, by simpa using this.2.symm, rfl⟩
  · subst hs
    right
    rw [List.concat_eq_append] at h ⊢
    rw [show pre ++ v :: (s2 ++ [b]) = (pre ++ v :: s2) ++ [b] by simp] at h
    have hlen : l.length = (pre ++ v :: s2).length := by
      have := congrArg List.length h
      simp at this ⊢
      omega
    obtain ⟨h1, h2⟩ := List.append_inj h hlen
    have hab : a = b := by simpa using h2
    exact ⟨s2, by rw [hab], h1⟩

theorem sortK_perm (l : List Path) : (sortK l).Perm l :=
  List.perm_insertionSort _ l

theorem sortK_mem {x : Path} {l : List Path} : x ∈ sortK l ↔ x ∈ l :=
  (sortK_perm l).mem_iff

theorem processDeps_foldl (E : Edges) (hndk : (E.map Prod.fst).Nodup)
    (hdeps : ∀ pr ∈ E, pr.2.Nodup ∧ ∀ x ∈ pr.2, x ∈ E.map Prod.fst)
    (u : Path) (out rest : List Path)
    (houtnd : out.Nodup) (houtMem : ∀ v ∈ out, v ∈ E.map Prod.fst)
    (huk : u ∈ E.map Prod.fst) (huout : u ∉ out)
    (huready : ∀ w, u ∈ depsOf E w → w ∈ out)
    (hsorted : ∀ pre v suf, out = pre ++ v :: suf → ∀ w, v ∈ depsOf E w → w ∈ pre)
    (hqready : ∀ v ∈ rest, ∀ w, v ∈ depsOf E w → w ∈ out) :
    ∀ (ds2 P q : List Path) (ind : Indeg),
      (∀ v ∈ ds2, v ∈ depsOf E u) → (∀ v ∈ ds2, v ∉ P) → ds2.Nodup →
      MInv E u out rest P q ind →
      MInv E u out rest (P ++ ds2) (ds2.foldl processDep (q, ind)).1
        (ds2.foldl processDep (q, ind)).2 := by
  intro ds2
  induction ds2 with
  | nil =>
    intro P q ind _ _ _ hm
    simpa using hm
  | cons v ds2' ih =>
    intro P q ind hds hdsP hdsnd hm
    have hvdep : v ∈ depsOf E u := hds v (by simp)
    have hvP : v ∉ P := hdsP v (by simp)
    have hvk : v ∈ E.map Prod.fst := (depsOf_spec E hdeps u).2 v hvdep
    have hpu : ((depsOf E u).contains v) = true := (contains_iff_mem _ v).mpr hvdep
    -- v is not already emitted
    have hvne_u : v ≠ u := by
      intro he
      exact huout (huready u (he ▸ hvdep))
    have hvout : v ∉ out := by
      intro hvo
      obtain ⟨pre, suf, hdec⟩ := List.append_of_mem hvo
      apply huout
      rw [hdec]
      exact List.mem_append.mpr (Or.inl (hsorted pre v suf hdec u hvdep))
    have hvout' : v ∉ out ++ [u] := by
      intro hc
      rcases List.mem_append.mp hc with hc | hc
      · exact hvout hc
      · exact hvne_u (List.mem_singleton.mp hc)
    have hvq : v ∉ q := by
      intro hc
      rcases hm.qOrigin v hc with hc2 | hc2
      · exact huout (hqready v hc2 u hvdep)
      · exact hvP hc2
    -- the counter of v before and after the decrement
    have hcount_v : lookupA ind v =
        some ((inDegOf E v : Int)
          - ((out.countP (fun w => (depsOf E w).contains v) : Nat) : Int)) := by
      rw [hm.count v hvk, if_neg hvP]
      ring_nf
    have hdec_v : lookupA (decIndeg ind v) v =
        some ((inDegOf E v : Int)
          - ((out.countP (fun w => (depsOf E w).contains v) : Nat) : Int) - 1) := by
      rw [lookupA_decIndeg, if_pos rfl, hcount_v]
      rfl
    rw [List.foldl_cons]
    have hstep : processDep (q, ind) v =
        (if lookupA (decIndeg ind v) v = some 0 then sortK (q ++ [v]) else q,
          decIndeg ind v) := by
      unfold processDep
      by_cases hz : lookupA (decIndeg ind v) v = some 0
      · rw [if_pos hz, if_pos hz]
      · rw [if_neg hz, if_neg hz]
    -- the invariant after processing v, for either branch
    have hm2 : MInv E u out rest (P ++ [v])
        (if lookupA (decIndeg ind v) v = some 0 then sortK (q ++ [v]) else q)
        (decIndeg ind v) := by
      have hcount2 : ∀ x ∈ E.map Prod.fst, lookupA (decIndeg ind v) x =
          some ((inDegOf E x : Int)
            - ((out.countP (fun w => (depsOf E w).contains x) : Nat) : Int)
            - (if x ∈ P ++ [v] then (1 : Int) else 0)) := by
        intro x hx
        by_cases hxv : x = v
        · rw [hxv, hdec_v, if_pos (by simp)]
        · rw [lookupA_decIndeg, if_neg hxv, hm.count x hx]
          have : (x ∈ P ++ [v]) ↔ (x ∈ P) := by simp [hxv]
          by_cases hxP : x ∈ P
          · rw [if_pos hxP, if_pos (this.mpr hxP)]
          · rw [if_neg hxP, if_neg (fun hc => hxP (this.mp hc))]
      by_cases hz : lookupA (decIndeg ind v) v = some 0
      · -- v reaches indegree zero and is pushed
        have hfull : (out ++ [u]).countP (fun w => (depsOf E w).contains v) = inDegOf E v := by
          rw [hdec_v] at hz
          have h0 := Option.some.inj hz
          have hcnt : (out.countP (fun w => (depsOf E w).contains v) : Int) + 1
              = (inDegOf E v : Int) := by omega
          rw [List.countP_append]
          have : ([u].countP (fun w => (depsOf E w).contains v)) = 1 := by
            simp [List.countP_cons, hpu, hvdep]
          rw [this]
          omega
        have hndout' : (out ++ [u]).Nodup := by
          have := hm.nd
          exact (List.nodup_append.mp this).1
        have houtMem' : ∀ x ∈ out ++ [u], x ∈ E.map Prod.fst := by
          intro x hx
          rcases List.mem_append.mp hx with hx | hx
          · exact houtMem x hx
          · rw [List.mem_singleton.mp hx]
            exact huk
        have hallin : ∀ w, v ∈ depsOf E w → w ∈ out ++ [u] := by
          intro w hw
          by_contra hwout
          have := processed_lt_of_missing E hndk v (out ++ [u]) hndout' houtMem' w hw hwout
          omega
        rw [if_pos hz]
        refine ⟨?_, ?_, ?_, hcount2, ?_, ?_, ?_⟩
        · rw [keys_decIndeg]
          exact hm.keys
        · have h1 : ((out ++ [u]) ++ q ++ [v]).Nodup := by
            rw [List.nodup_append]
            refine ⟨hm.nd, List.nodup_singleton v, ?_⟩
            intro a ha hb
            rw [List.mem_singleton.mp hb] at ha
            rcases List.mem_append.mp ha with ha | ha
            · exact hvout' ha
            · exact hvq ha
          have h2 : ((out ++ [u]) ++ q ++ [v]).Perm ((out ++ [u]) ++ sortK (q ++ [v])) := by
            rw [List.append_assoc]
            exact List.Perm.append_left (out ++ [u]) (sortK_perm (q ++ [v])).symm
          exact h2.nodup h1
        · intro x hx
          rcases List.mem_append.mp (sortK_mem.mp hx) with hx | hx
          · exact hm.qMem x hx
          · rw [List.mem_singleton.mp hx]
            exact hvk
        · intro x hx w hw
          rcases List.mem_append.mp (sortK_mem.mp hx) with hx | hx
          · exact hm.ready x hx w hw
          · rw [List.mem_singleton.mp hx] at hw
            exact hallin w hw
        · intro x hx
          rcases List.mem_append.mp (sortK_mem.mp hx) with hx | hx
          · rcases hm.qOrigin x hx with h | h
            · exact Or.inl h
            · exact Or.inr (by simp [h])
          · rw [List.mem_singleton.mp hx]
            exact Or.inr (by simp)
        · intro x hx hxout hxq
          have hxq' : x ∉ q := fun hc => hxq (sortK_mem.mpr (by simp [hc]))
          have hxv : x ≠ v := by
            intro he
            exact hxq (sortK_mem.mpr (by simp [he]))
          have := hm.fresh x hx hxout hxq'
          have hiff : (x ∈ P ++ [v]) ↔ (x ∈ P) := by simp [hxv]
          by_cases hxP : x ∈ P
          · rw [if_pos (hiff.mpr hxP)]
            rw [if_pos hxP] at this
            exact this
          · rw [if_neg (fun hc => hxP (hiff.mp hc))]
            rw [if_neg hxP] at this
            exact this
      · -- v keeps a positive indegree
        rw [if_neg hz]
        refine ⟨?_, ?_, hm.qMem, hcount2, hm.ready, ?_, ?_⟩
        · rw [keys_decIndeg]
          exact hm.keys
        · exact hm.nd
        · intro x hx
          rcases hm.qOrigin x hx with h | h
          · exact Or.inl h
          · exact Or.inr (by simp [h])
        · intro x hx hxout hxq
          by_cases hxv : x = v
          · rw [if_pos (by simp [hxv])]
            have hpos := hm.fresh x hx hxout hxq
            rw [if_neg (hxv ▸ hvP)] at hpos
            have hne0 : ¬ ((inDegOf E x : Int)
                - ((out.countP (fun w => (depsOf E w).contains x) : Nat) : Int) - 1 = 0) := by
              intro hc
              apply hz
              rw [hxv] at hc
              rw [hdec_v, hc]
            omega
          · have := hm.fresh x hx hxout hxq
            have hiff : (x ∈ P ++ [v]) ↔ (x ∈ P) := by simp [hxv]
            by_cases hxP : x ∈ P
            · rw [if_pos (hiff.mpr hxP)]
              rw [if_pos hxP] at this
              exact this
            · rw [if_neg (fun hc => hxP (hiff.mp hc))]
              rw [if_neg hxP] at this
              exact this
    rw [hstep]
    have hds' : ∀ x ∈ ds2', x ∈ depsOf E u := fun x hx => hds x (by simp [hx])
    have hdsP' : ∀ x ∈ ds2', x ∉ P ++ [v] := by
      intro x hx
      simp only [List.mem_append, List.mem_singleton]
      rintro (h | h)
      · exact hdsP x (by simp [hx]) h
      · rw [h] at hx
        exact (List.nodup_cons.mp hdsnd).1 hx
    have := ih (P ++ [v])
      (if lookupA (decIndeg ind v) v = some 0 then sortK (q ++ [v]) else q)
      (decIndeg ind v) hds' hdsP' (List.nodup_cons.mp hdsnd).2 hm2
    rw [List.append_assoc] at this
    simpa using this

theorem kahnStep_inv (E : Edges) (hndk : (E.map Prod.fst).Nodup)
    (hdeps : ∀ pr ∈ E, pr.2.Nodup ∧ ∀ x ∈ pr.2, x ∈ E.map Prod.fst)
    (u : Path) (rest : List Path) (ind : Indeg) (out : List Path)
    (hinv : KInv E (u :: rest) ind out) :
    KInv E ((sortK (depsOf E u)).foldl processDep (rest, ind)).1
      ((sortK (depsOf E u)).foldl processDep (rest, ind)).2 (out ++ [u]) := by
  have hndout : out.Nodup := (List.nodup_append.mp hinv.nd).1
  have hdisj := List.disjoint_of_nodup_append hinv.nd
  have huout : u ∉ out := fun hc => hdisj hc (by simp)
  have huk : u ∈ E.map Prod.fst := hinv.qMem u (by simp)
  have huready : ∀ w, u ∈ depsOf E w → w ∈ out := hinv.ready u (by simp)
  have hqready : ∀ v ∈ rest, ∀ w, v ∈ depsOf E w → w ∈ out :=
    fun v hv => hinv.ready v (by simp [hv])
  have hdsu := depsOf_spec E hdeps u
  have hm0 : MInv E u out rest [] rest ind := by
    refine ⟨hinv.keys, ?_, fun v hv => hinv.qMem v (by simp [hv]), ?_, ?_, ?_, ?_⟩
    · rw [List.append_assoc, List.singleton_append]
      exact hinv.nd
    · intro v hv
      rw [hinv.count v hv, if_neg (List.not_mem_nil v)]
      norm_num
    · intro v hv w hw
      exact List.mem_append.mpr (Or.inl (hqready v hv w hw))
    · intro x hx
      exact Or.inl hx
    · intro v hv hvout hvrest
      have h1 : v ∉ out := fun hc => hvout (List.mem_append.mpr (Or.inl hc))
      have h2 : v ∉ u :: rest := by
        intro hc
        rcases List.mem_cons.mp hc with hc | hc
        · exact hvout (List.mem_append.mpr (Or.inr (by simp [hc])))
        · exact hvrest hc
      have := hinv.fresh v hv h1 h2
      rw [if_neg (List.not_mem_nil v)]
      omega
  have hmain := processDeps_foldl E hndk hdeps u out rest hndout hinv.outMem huk huout
    huready hinv.sorted hqready (sortK (depsOf E u)) [] rest ind
    (fun v hv => sortK_mem.mp hv)
    (fun v _ => List.not_mem_nil v)
    ((sortK_perm (depsOf E u)).nodup_iff.mpr hdsu.1)
    hm0
  rw [List.nil_append] at hmain
  -- convert the completed MInv into KInv for out ++ [u]
  refine ⟨hmain.keys, hmain.nd, ?_, hmain.qMem, ?_, hmain.ready, ?_, ?_⟩
  · intro v hv
    rcases List.mem_append.mp hv with hv | hv
    · exact hinv.outMem v hv
    · rw [List.mem_singleton.mp hv]
      exact huk
  · intro v hv
    rw [hmain.count v hv]
    have hcntapp : ((out ++ [u]).countP (fun w => (depsOf E w).contains v))
        = out.countP (fun w => (depsOf E w).contains v)
          + (if (depsOf E u).contains v then 1 else 0) := by
      rw [List.countP_append]
      congr 1
      simp [List.countP_cons]
    rw [hcntapp]
    by_cases hvd : v ∈ depsOf E u
    · rw [if_pos (sortK_mem.mpr hvd), if_pos ((contains_iff_mem _ v).mpr hvd)]
      congr 1
      push_cast
      ring
    · rw [if_neg (fun hc => hvd (sortK_mem.mp hc)),
        if_neg (fun hc => hvd ((contains_iff_mem _ v).mp hc))]
      congr 1
      push_cast
      ring
  · intro pre v suf hdec w hw
    rcases append_singleton_decomp out pre suf u v hdec with ⟨h1, h2, _⟩ | ⟨s2, _, h2⟩
    · rw [h1]
      rw [h2] at hw
      exact huready w hw
    · exact hinv.sorted pre v s2 h2 w hw
  · intro v hv hvout hvq
    have := hmain.fresh v hv hvout hvq
    have hcntapp : ((out ++ [u]).countP (fun w => (depsOf E w).contains v))
        = out.countP (fun w => (depsOf E w).contains v)
          + (if (depsOf E u).contains v then 1 else 0) := by
      rw [List.countP_append]
      congr 1
      simp [List.countP_cons]
    rw [hcntapp]
    by_cases hvd : v ∈ depsOf E u
    · rw [if_pos (sortK_mem.mpr hvd)] at this
      rw [if_pos ((contains_iff_mem _ v).mpr hvd)]
      omega
    · rw [if_neg (fun hc => hvd (sortK_mem.mp hc))] at this
      rw [if_neg (fun hc => hvd ((contains_iff_mem _ v).mp hc))]
      omega

theorem kahnLoopF_nil (E : Edges) (fuel : Nat) (ind : Indeg) (out : List Path) :
    kahnLoopF E fuel [] ind out = out := by
  cases fuel <;> rfl

theorem kahnLoopF_spec (E : Edges) (hndk : (E.map Prod.fst).Nodup)
    (hdeps : ∀ pr ∈ E, pr.2.Nodup ∧ ∀ x ∈ pr.2, x ∈ E.map Prod.fst) :
    ∀ (fuel : Nat) (q : List Path) (ind : Indeg) (out : List Path),
      kahnMeasure q ind ≤ fuel → KInv E q ind out →
      (out <+: kahnLoopF E fuel q ind out) ∧
      (kahnLoopF E fuel q ind out).Nodup ∧
      (∀ v ∈ kahnLoopF E fuel q ind out, v ∈ E.map Prod.fst) ∧
      (∀ pre v suf, kahnLoopF E fuel q ind out = pre ++ v :: suf →
        ∀ w, v ∈ depsOf E w → w ∈ pre) ∧
      (∀ v ∈ E.map Prod.fst, v ∉ kahnLoopF E fuel q ind out →
        ∃ w, v ∈ depsOf E w ∧ w ∉ kahnLoopF E fuel q ind out) := by
  intro fuel
  induction fuel with
  | zero =>
    intro q ind out hfuel hinv
    cases q with
    | cons u rest =>
      exfalso
      unfold kahnMeasure at hfuel
      simp at hfuel
    | nil =>
      rw [kahnLoopF_nil]
      have hndout : out.Nodup := by simpa using hinv.nd
      refine ⟨List.prefix_refl out, hndout, hinv.outMem, hinv.sorted, ?_⟩
      intro v hv hvout
      by_contra hall
      push_neg at hall
      have hall' : ∀ w, v ∈ depsOf E w → w ∈ out := fun w hw => hall w hw
      have h1 := inDeg_le_processed_of_all E hndk v out hndout hall'
      have h2 := hinv.fresh v hv hvout (List.not_mem_nil v)
      omega
  | succ fuel ih =>
    intro q ind out hfuel hinv
    cases q with
    | nil =>
      rw [kahnLoopF_nil]
      have hndout : out.Nodup := by simpa using hinv.nd
      refine ⟨List.prefix_refl out, hndout, hinv.outMem, hinv.sorted, ?_⟩
      intro v hv hvout
      by_contra hall
      push_neg at hall
      have hall' : ∀ w, v ∈ depsOf E w → w ∈ out := fun w hw => hall w hw
      have h1 := inDeg_le_processed_of_all E hndk v out hndout hall'
      have h2 := hinv.fresh v hv hvout (List.not_mem_nil v)
      omega
    | cons u rest =>
      have hstep : kahnLoopF E (fuel + 1) (u :: rest) ind out =
          kahnLoopF E fuel ((sortK (depsOf E u)).foldl processDep (rest, ind)).1
            ((sortK (depsOf E u)).foldl processDep (rest, ind)).2 (out ++ [u]) := rfl
      rw [hstep]
      have hinv2 := kahnStep_inv E hndk hdeps u rest ind out hinv
      have hm1 : kahnMeasure ((sortK (depsOf E u)).foldl processDep (rest, ind)).1
          ((sortK (depsOf E u)).foldl processDep (rest, ind)).2 ≤ fuel := by
        have h1 := foldl_processDep_measure (sortK (depsOf E u)) rest ind
        have h2 : kahnMeasure (u :: rest) ind = kahnMeasure rest ind + 1 := by
          unfold kahnMeasure
          simp
          omega
        omega
      obtain ⟨p1, p2, p3, p4, p5⟩ := ih _ _ _ hm1 hinv2
      exact ⟨(List.prefix_append out [u]).trans p1, p2, p3, p4, p5⟩

theorem initial_KInv (E : Edges) (ind : Indeg) (W : WellFormedGraph E ind) :
    KInv E (sortK ((ind.filter (fun pd => pd.2 == 0)).map Prod.fst)) ind [] := by
  have hndind : (ind.map Prod.fst).Nodup := by rw [W.keys]; exact W.ndk
  have hq0sub : ∀ v ∈ sortK ((ind.filter (fun pd => pd.2 == 0)).map Prod.fst),
      ∃ pr, pr ∈ ind ∧ pr.1 = v ∧ pr.2 = 0 := by
    intro v hv
    rcases List.mem_map.mp (sortK_mem.mp hv) with ⟨pr, hpr, hfst⟩
    have := List.mem_filter.mp hpr
    exact ⟨pr, this.1, hfst, by simpa using this.2⟩
  have hq0mem : ∀ v ∈ sortK ((ind.filter (fun pd => pd.2 == 0)).map Prod.fst),
      v ∈ E.map Prod.fst := by
    intro v hv
    rcases hq0sub v hv with ⟨pr, hpr, hfst, _⟩
    rw [← W.keys, ← hfst]
    exact List.mem_map.mpr ⟨pr, hpr, rfl⟩
  have hq0zero : ∀ v ∈ sortK ((ind.filter (fun pd => pd.2 == 0)).map Prod.fst),
      inDegOf E v = 0 := by
    intro v hv
    rcases hq0sub v hv with ⟨pr, hpr, hfst, hz⟩
    have h1 : lookupA ind v = some pr.2 := by
      rw [← hfst]
      exact lookupA_eq_of_mem_nodup ind pr.1 pr.2 hndind (by
        rw [show (pr.1, pr.2) = pr from rfl]
        exact hpr)
    have h2 := W.count v (hq0mem v hv)
    rw [h1, hz] at h2
    have := Option.some.inj h2
    omega
  refine ⟨W.keys, ?_, by simp, hq0mem, ?_, ?_, ?_, ?_⟩
  · rw [List.nil_append]
    apply ((sortK_perm _).nodup_iff).mpr
    exact List.Nodup.sublist ((List.filter_sublist _).map Prod.fst) hndind
  · intro v hv
    rw [W.count v hv]
    norm_num
  · intro v hv w hw
    exfalso
    have h0 := hq0zero v hv
    have hwk : w ∈ E.map Prod.fst := depsOf_mem_keys E w v hw
    have : 0 < inDegOf E v := by
      unfold inDegOf
      rw [List.countP_pos]
      exact ⟨w, hwk, (contains_iff_mem _ v).mpr hw⟩
    omega
  · intro pre v suf hdec
    exfalso
    simp at hdec
  · intro v hv hvout hvq
    have h0 : inDegOf E v ≠ 0 := by
      intro hz
      apply hvq
      obtain ⟨a, ha⟩ := lookupA_isSome_of_mem ind v (by rw [W.keys]; exact hv)
      have h2 := W.count v hv
      rw [ha] at h2
      have ha0 : a = 0 := by
        have := Option.some.inj h2
        omega
      have hmem : (v, a) ∈ ind := lookupA_mem ind v a ha
      apply sortK_mem.mpr
      apply List.mem_map.mpr
      refine ⟨(v, a), List.mem_filter.mpr ⟨hmem, by simp [ha0]⟩, rfl⟩
    simp only [List.countP_nil]
    omega

theorem leftover_foldl : ∀ (keys kout : List Path), keys.Nodup →
    keys.foldl (fun acc p => if p ∈ acc then acc else acc ++ [p]) kout
      = kout ++ keys.filter (fun p => decide (p ∉ kout)) := by
  intro keys
  induction keys with
  | nil =>
    intro kout _
    simp
  | cons k ks ih =>
    intro kout hnd
    rw [List.foldl_cons]
    by_cases hk : k ∈ kout
    · rw [if_pos hk, ih kout (List.nodup_cons.mp hnd).2]
      congr 1
      simp [List.filter_cons, hk]
    · rw [if_neg hk, ih (kout ++ [k]) (List.nodup_cons.mp hnd).2]
      have hfeq : ks.filter (fun p => decide (p ∉ kout ++ [k]))
          = ks.filter (fun p => decide (p ∉ kout)) := by
        apply List.filter_congr
        intro x hx
        have hxk : x ≠ k := fun he => (List.nodup_cons.mp hnd).1 (he ▸ hx)
        simp [hxk]
      rw [hfeq, List.append_assoc, List.singleton_append]
      congr 1
      simp [List.filter_cons, hk]

theorem kahnPhase_spec (E : Edges) (ind : Indeg) (W : WellFormedGraph E ind) :
    (kahnPhase E ind).Nodup ∧ (∀ v ∈ kahnPhase E ind, v ∈ E.map Prod.fst) ∧
    (∀ pre v suf, kahnPhase E ind = pre ++ v :: suf →
      ∀ w, v ∈ depsOf E w → w ∈ pre) ∧
    (∀ v ∈ E.map Prod.fst, v ∉ kahnPhase E ind →
      ∃ w, v ∈ depsOf E w ∧ w ∉ kahnPhase E ind) := by
  have h := kahnLoopF_spec E W.ndk W.deps
    (kahnMeasure (sortK ((ind.filter (fun pd => pd.2 == 0)).map Prod.fst)) ind)
    (sortK ((ind.filter (fun pd => pd.2 == 0)).map Prod.fst)) ind []
    (le_refl _) (initial_KInv E ind W)
  exact ⟨h.2.1, h.2.2.1, h.2.2.2.1, h.2.2.2.2⟩

theorem topo_sort_eq_kahn_append (E : Edges) (ind : Indeg)
    (hndk : (E.map Prod.fst).Nodup) :
    topo_sort E ind = kahnPhase E ind
      ++ (E.map Prod.fst).filter (fun p => decide (p ∉ kahnPhase E ind)) :=
  leftover_foldl (E.map Prod.fst) (kahnPhase E ind) hndk

theorem topo_sort_mem (E : Edges) (ind : Indeg) (W : WellFormedGraph E ind) :
    ∀ v, v ∈ topo_sort E ind ↔ v ∈ E.map Prod.fst := by
  intro v
  rw [topo_sort_eq_kahn_append E ind W.ndk]
  obtain ⟨_, hmem, _, _⟩ := kahnPhase_spec E ind W
  constructor
  · intro hv
    rcases List.mem_append.mp hv with hv | hv
    · exact hmem v hv
    · exact (List.mem_filter.mp hv).1
  · intro hv
    by_cases hk : v ∈ kahnPhase E ind
    · exact List.mem_append.mpr (Or.inl hk)
    · exact List.mem_append.mpr (Or.inr (List.mem_filter.mpr ⟨hv, by simpa using hk⟩))

theorem topo_sort_nodup (E : Edges) (ind : Indeg) (W : WellFormedGraph E ind) :
    (topo_sort E ind).Nodup := by
  rw [topo_sort_eq_kahn_append E ind W.ndk]
  obtain ⟨hnd, _, _, _⟩ := kahnPhase_spec E ind W
  rw [List.nodup_append]
  refine ⟨hnd, W.ndk.filter _, ?_⟩
  intro a ha hb
  have := (List.mem_filter.mp hb).2
  simp only [decide_eq_true_eq] at this
  exact this ha

theorem topo_sort_perm (E : Edges) (ind : Indeg) (W : WellFormedGraph E ind) :
    (topo_sort E ind).Perm (E.map Prod.fst) := by
  rw [List.perm_ext_iff_of_nodup (topo_sort_nodup E ind W) W.ndk]
  exact topo_sort_mem E ind W

theorem build_graph_wf (fs : FS) (files : List Path) (roots : List String)
    (header : Option Path) (hnd : files.Nodup) (E : Edges) (I : Indeg)
    (heq : build_graph fs files roots header = (E, I)) : WellFormedGraph E I := by
  obtain ⟨c1, c2, c3, c4, _⟩ := build_graph_spec fs files roots header hnd E I heq
  refine ⟨c2.trans c1.symm, ?_, ?_, ?_⟩
  · rw [c1]
    exact hnd.filter _
  · intro pr hpr
    refine ⟨(c4 pr hpr).1, ?_⟩
    intro x hx
    rw [c1]
    exact (c4 pr hpr).2 x hx
  · intro v hv
    rw [c1] at hv
    exact c3 v hv

/-- C1: for every dependency graph built by `build_graph` — cyclic or not —
`topo_sort` terminates (it is a total function) and returns a list with
exactly as many entries as the graph has nodes, in which every node occurs
exactly once and nothing else occurs. -/
theorem C1_topo_sort_emits_every_node_exactly_once (fs : FS) (files : List Path)
    (roots : List String) (header : Option Path) (hnd : files.Nodup)
    (E : Edges) (I : Indeg) (heq : build_graph fs files roots header = (E, I)) :
    (topo_sort E I).length = (files.filter (fun f => header != some f)).length ∧
    (∀ f ∈ files.filter (fun f => header != some f), (topo_sort E I).count f = 1) ∧
    (∀ f, f ∉ files.filter (fun f => header != some f) → (topo_sort E I).count f = 0) := by
  have W := build_graph_wf fs files roots header hnd E I heq
  have hkeys : E.map Prod.fst = files.filter (fun f => header != some f) :=
    (build_graph_spec fs files roots header hnd E I heq).1
  have hperm := topo_sort_perm E I W
  refine ⟨?_, ?_, ?_⟩
  · rw [hperm.length_eq, hkeys]
  · intro f hf
    rw [hperm.count_eq]
    have : f ∈ E.map Prod.fst := by rw [hkeys]; exact hf
    have h1 := List.count_eq_one_of_mem W.ndk this
    exact h1
  · intro f hf
    rw [hperm.count_eq]
    apply List.count_eq_zero_of_not_mem
    rw [hkeys]
    exact hf

theorem C1_witness :
    (topo_sort (build_graph fsDupReq ["src/a.lua", "src/b.lua"] ["src"] none).1
        (build_graph fsDupReq ["src/a.lua", "src/b.lua"] ["src"] none).2).count
      "src/a.lua" = 1 :=
  (C1_topo_sort_emits_every_node_exactly_once fsDupReq ["src/a.lua", "src/b.lua"]
    ["src"] none (by decide) _ _ rfl).2.1 "src/a.lua" (by decide)

/-- C2: for every well-formed acyclic dependency graph and every recorded
edge dependency `u` → dependent `v`, the dependency appears strictly before
the dependent in `topo_sort`'s output: in any split of the output at `v`,
`u` lies in the prefix. -/
theorem C2_dependency_strictly_before_dependent (E : Edges) (ind : Indeg)
    (W : WellFormedGraph E ind) (hac : Acyclic E)
    (u v : Path) (he : v ∈ depsOf E u)
    (pre suf : List Path) (hdec : topo_sort E ind = pre ++ v :: suf) :
    u ∈ pre := by
  obtain ⟨hndK, hmemK, hsorted, hmissing⟩ := kahnPhase_spec E ind W
  have hall : ∀ x ∈ E.map Prod.fst, x ∈ kahnPhase E ind := by
    by_contra hc
    push_neg at hc
    obtain ⟨rank, hrank⟩ := hac
    have hRne : (E.map Prod.fst).filter (fun p => decide (p ∉ kahnPhase E ind)) ≠ [] := by
      obtain ⟨x, hx1, hx2⟩ := hc
      intro h0
      have hx : x ∈ (E.map Prod.fst).filter (fun p => decide (p ∉ kahnPhase E ind)) :=
        List.mem_filter.mpr ⟨hx1, by simpa using hx2⟩
      rw [h0] at hx
      simp at hx
    obtain ⟨m, hm⟩ : ∃ m, m ∈ List.argmin rank
        ((E.map Prod.fst).filter (fun p => decide (p ∉ kahnPhase E ind))) := by
      cases hargm : List.argmin rank
          ((E.map Prod.fst).filter (fun p => decide (p ∉ kahnPhase E ind))) with
      | none => exact absurd (List.argmin_eq_none.mp hargm) hRne
      | some m => exact ⟨m, by simp [hargm, Option.mem_def]⟩
    have hmR := List.argmin_mem hm
    have hmk : m ∈ E.map Prod.fst := (List.mem_filter.mp hmR).1
    have hmnot : m ∉ kahnPhase E ind := by simpa using (List.mem_filter.mp hmR).2
    obtain ⟨w, hw1, hw2⟩ := hmissing m hmk hmnot
    have hwR : w ∈ (E.map Prod.fst).filter (fun p => decide (p ∉ kahnPhase E ind)) :=
      List.mem_filter.mpr ⟨depsOf_mem_keys E w m hw1, by simpa using hw2⟩
    exact List.not_lt_of_mem_argmin hwR hm (hrank w m hw1)
  have hleft : (E.map Prod.fst).filter (fun p => decide (p ∉ kahnPhase E ind)) = [] := by
    rw [List.filter_eq_nil_iff]
    intro a ha
    simp [hall a ha]
  have htopo : topo_sort E ind = kahnPhase E ind := by
    rw [topo_sort_eq_kahn_append E ind W.ndk, hleft, List.append_nil]
  rw [htopo] at hdec
  exact hsorted pre v suf hdec u he

theorem chain_acyclic : Acyclic chainE := by
  refine ⟨fun p => if p = "src/a.lua" then 0 else 1, ?_⟩
  intro u v hv
  have hu : u ∈ chainE.map Prod.fst := depsOf_mem_keys chainE u v hv
  have hu2 : u = "src/a.lua" ∨ u = "src/b.lua" := by simpa [chainE] using hu
  rcases hu2 with rfl | rfl
  · have hv2 : v = "src/b.lua" := by
      have : v ∈ ["src/b.lua"] := hv
      simpa using this
    rw [hv2]
    decide
  · have : v ∈ ([] : List Path) := hv
    simp at this

theorem C2_witness : "src/a.lua" ∈ ["src/a.lua"] :=
  C2_dependency_strictly_before_dependent chainE chainI
    ⟨by decide, by decide, by decide, by decide⟩ chain_acyclic
    "src/a.lua" "src/b.lua" (by decide) ["src/a.lua"] [] (by decide)

/-- C5: `topo_sort` never fails on a cyclic graph: its output is exactly
the Kahn-phase output followed by every node not placed by the Kahn phase,
appended by scanning the `edges` keys in their insertion order — the
original discovery order, since `build_graph` inserts the keys in file
order. -/
theorem C5_unplaced_nodes_appended_in_key_order (E : Edges) (ind : Indeg)
    (hndk : (E.map Prod.fst).Nodup) :
    topo_sort E ind = kahnPhase E ind
      ++ (E.map Prod.fst).filter (fun p => decide (p ∉ kahnPhase E ind)) :=
  topo_sort_eq_kahn_append E ind hndk

theorem C5_witness :
    topo_sort cycleE cycleI = kahnPhase cycleE cycleI
        ++ (cycleE.map Prod.fst).filter (fun p => decide (p ∉ kahnPhase cycleE cycleI))
      ∧ kahnPhase cycleE cycleI = []
      ∧ topo_sort cycleE cycleI = ["src/a.lua", "src/b.lua"] :=
  ⟨C5_unplaced_nodes_appended_in_key_order cycleE cycleI (by decide),
    by decide, by decide⟩

/-- C6 counterexample: `src/extra.lua` is a designated prepend file that
exists, yet — because header detection only excludes prepend entries whose
path ends in `_header.lua` — it stays a graph node and appears in the build
order. -/
theorem C6_counterexample :
    (fsC6 "src/extra.lua").isSome = true ∧
    selectHeader fsC6 "src" ["src/extra.lua"] = none ∧
    "src/extra.lua" ∈ (build_graph fsC6 ["src/a.lua", "src/extra.lua"] ["src"]
        (selectHeader fsC6 "src" ["src/extra.lua"])).1.map Prod.fst ∧
    "src/extra.lua" ∈ topo_sort
        (build_graph fsC6 ["src/a.lua", "src/extra.lua"] ["src"]
          (selectHeader fsC6 "src" ["src/extra.lua"])).1
        (build_graph fsC6 ["src/a.lua", "src/extra.lua"] ["src"]
          (selectHeader fsC6 "src" ["src/extra.lua"])).2 := by
  decide

/-- C6 (amended): the node set equals the discovered files minus the header
selected by `main`'s detection rule — the first prepend entry resolving to
an existing file whose path ends in `_header.lua`.  When such a header is
selected it never appears as a node nor in the build order; a prepend file
not ending in `_header.lua` is not excluded. -/
theorem C6_only_suffix_selected_header_excluded (fs : FS) (srcDir : String)
    (prepend : List String) (files : List Path) (roots : List String)
    (hnd : files.Nodup) (E : Edges) (I : Indeg)
    (heq : build_graph fs files roots (selectHeader fs srcDir prepend) = (E, I)) :
    E.map Prod.fst = files.filter (fun f => selectHeader fs srcDir prepend != some f) ∧
    ∀ h, selectHeader fs srcDir prepend = some h →
      h ∉ E.map Prod.fst ∧ h ∉ topo_sort E I := by
  have spec1 := (build_graph_spec fs files roots _ hnd E I heq).1
  refine ⟨spec1, ?_⟩
  intro h hh
  have hnot : h ∉ E.map Prod.fst := by
    rw [spec1]
    intro hmem
    have h2 := (List.mem_filter.mp hmem).2
    rw [hh] at h2
    simp at h2
  refine ⟨hnot, fun hmem => hnot ?_⟩
  exact (topo_sort_mem E I (build_graph_wf fs files roots _ hnd E I heq) h).mp hmem

theorem C6_amended_witness :
    "src/_header.lua" ∉ topo_sort
        (build_graph fsHdr ["src/_header.lua", "src/a.lua"] ["src"]
          (selectHeader fsHdr "src" ["src/_header.lua"])).1
        (build_graph fsHdr ["src/_header.lua", "src/a.lua"] ["src"]
          (selectHeader fsHdr "src" ["src/_header.lua"])).2 :=
  ((C6_only_suffix_selected_header_excluded fsHdr "src" ["src/_header.lua"]
      ["src/_header.lua", "src/a.lua"] ["src"] (by decide) _ _ rfl).2
    "src/_header.lua" (by decide)).2

theorem foldl_append_flatten {α β : Type} (f : α → List β) (l : List α) (acc : List β) :
    l.foldl (fun a x => a ++ f x) acc = acc ++ (l.map f).flatten := by
  induction l generalizing acc with
  | nil => simp
  | cons x xs ih =>
    rw [List.foldl_cons, ih (acc ++ f x)]
    simp [List.append_assoc]

theorem foldl_orderUnit_none (fs : FS) (strip : Bool) (l : List Path) :
    l.foldl (fun a f => a.bind (fun x => (orderUnit fs strip f).map (fun us => x ++ us)))
      none = none := by
  induction l with
  | nil => rfl
  | cons f l ih =>
    rw [List.foldl_cons]
    exact ih

theorem foldl_orderUnit_spec (fs : FS) (strip : Bool) (order : List Path) (acc ps : List String)
    (h : order.foldl (fun a f => a.bind (fun x => (orderUnit fs strip f).map (fun us => x ++ us)))
      (some acc) = some ps) :
    ps = acc ++ (order.map (fun f => (orderUnit fs strip f).getD [])).flatten := by
  induction order generalizing acc with
  | nil =>
    simp only [List.foldl_nil, Option.some.injEq] at h
    simp [h]
  | cons f rest ih =>
    rw [List.foldl_cons] at h
    cases hu : orderUnit fs strip f with
    | none =>
      rw [hu] at h
      have h1 : rest.foldl
          (fun a f => a.bind (fun x => (orderUnit fs strip f).map (fun us => x ++ us)))
          none = some ps := h
      rw [foldl_orderUnit_none] at h1
      exact absurd h1 (by simp)
    | some us =>
      rw [hu] at h
      have h1 : rest.foldl
          (fun a f => a.bind (fun x => (orderUnit fs strip f).map (fun us => x ++ us)))
          (some (acc ++ us)) = some ps := h
      have h2 := ih (acc ++ us) h1
      rw [h2]
      simp [hu, List.append_assoc]

theorem write_output_false_eq (fs : FS) (srcDir : String) (prepend : List String)
    (name ver : Option String) (order : List Path) :
    write_output fs srcDir prepend false name ver order =
      (order.foldl
          (fun a f => a.bind (fun x => (orderUnit fs false f).map (fun us => x ++ us)))
          (some [])).map
        (fun ps => String.join
          ((if make_banner_comment name ver = "" then [] else [make_banner_comment name ver])
            ++ prepend.foldl (fun acc p => acc ++ prependUnit fs srcDir p) [] ++ ps)) :=
  rfl

theorem write_output_prepend_block (fs : FS) (srcDir : String) (prepend : List String)
    (name ver : Option String) (order : List Path) (p : String) (content out : String)
    (hp : p ∈ prepend)
    (hex : fs (resolvePrepend fs srcDir p) = some content)
    (hout : write_output fs srcDir prepend false name ver order = some out) :
    ∃ pre post, out = pre ++ (("-- ==== BEGIN: " ++ resolvePrepend fs srcDir p ++ " ====\n")
      ++ content ++ ("\n-- ==== END: " ++ resolvePrepend fs srcDir p ++ " ====\n\n")) ++ post := by
  rw [write_output_false_eq] at hout
  obtain ⟨ps, hps, hjoin⟩ := Option.map_eq_some'.mp hout
  obtain ⟨l1, l2, rfl⟩ := List.append_of_mem hp
  rw [foldl_append_flatten (prependUnit fs srcDir) (l1 ++ p :: l2) []] at hjoin
  have hup : prependUnit fs srcDir p
      = ["-- ==== BEGIN: " ++ resolvePrepend fs srcDir p ++ " ====\n", content,
          "\n-- ==== END: " ++ resolvePrepend fs srcDir p ++ " ====\n\n"] := by
    simp [prependUnit, hex]
  refine ⟨String.join
      ((if make_banner_comment name ver = "" then [] else [make_banner_comment name ver])
        ++ (l1.map (prependUnit fs srcDir)).flatten),
    String.join ((l2.map (prependUnit fs srcDir)).flatten ++ ps), ?_⟩
  rw [← hjoin]
  apply String.ext
  simp [data_join, String.data_append, hup, List.append_assoc]

theorem write_output_order_block (fs : FS) (srcDir : String) (prepend : List String)
    (name ver : Option String) (order : List Path) (f : Path) (content out : String)
    (hf : f ∈ order)
    (hex : fs f = some content)
    (hout : write_output fs srcDir prepend false name ver order = some out) :
    ∃ pre post, out = pre ++ (("-- ==== BEGIN: " ++ f ++ " ====\n")
      ++ (rstrip content ++ "\n") ++ ("-- ==== END: " ++ f ++ " ====\n\n")) ++ post := by
  rw [write_output_false_eq] at hout
  obtain ⟨ps, hps, hjoin⟩ := Option.map_eq_some'.mp hout
  obtain ⟨o1, o2, rfl⟩ := List.append_of_mem hf
  have hdec := foldl_orderUnit_spec fs false (o1 ++ f :: o2) [] ps hps
  have huf : orderUnit fs false f
      = some ["-- ==== BEGIN: " ++ f ++ " ====\n", rstrip content ++ "\n",
          "-- ==== END: " ++ f ++ " ====\n\n"] := by
    simp [orderUnit, hex]
  refine ⟨String.join
      ((if make_banner_comment name ver = "" then [] else [make_banner_comment name ver])
        ++ (prepend.foldl (fun acc q => acc ++ prependUnit fs srcDir q) [])
        ++ (o1.map (fun g => (orderUnit fs false g).getD [])).flatten),
    String.join ((o2.map (fun g => (orderUnit fs false g).getD [])).flatten), ?_⟩
  rw [← hjoin, hdec]
  apply String.ext
  simp [data_join, String.data_append, huf, List.append_assoc]

/-- C3 counterexample: the existing prepend file `src/h.lua` holds
`require(\x27a\x27)` followed by code, yet with import-stripping enabled
the safety-net pass deletes that require line from the prepend section of
the bundle — the prepend content does not appear byte-identical anywhere
in the written output. -/
theorem C3_counterexample :
    write_output fsC3 "src" ["src/h.lua"] true none none []
        = some "-- ==== BEGIN: src/h.lua ====\nx = 1\n\n-- ==== END: src/h.lua ====\n\n" ∧
    fsC3 (resolvePrepend fsC3 "src" "src/h.lua") = some "require(\x27a\x27)\nx = 1\n" ∧
    containsSub "-- ==== BEGIN: src/h.lua ====\nx = 1\n\n-- ==== END: src/h.lua ====\n\n"
        "require(\x27a\x27)\nx = 1\n" = false := by
  decide

/-- C3 (amended): with import-stripping disabled, every existing prepend
file's content appears byte-identical in the bundle between its BEGIN
marker line and a newline followed by its END marker line; with stripping
enabled the safety-net pass runs over the whole bundle, prepend sections
included, and can delete require lines from them. -/
theorem C3_prepend_content_intact_without_strip (fs : FS) (srcDir : String)
    (prepend : List String) (name ver : Option String) (order : List Path)
    (p : String) (content out : String)
    (hp : p ∈ prepend)
    (hex : fs (resolvePrepend fs srcDir p) = some content)
    (hout : write_output fs srcDir prepend false name ver order = some out) :
    ∃ pre post, out = pre ++ (("-- ==== BEGIN: " ++ resolvePrepend fs srcDir p ++ " ====\n")
      ++ content ++ ("\n-- ==== END: " ++ resolvePrepend fs srcDir p ++ " ====\n\n")) ++ post :=
  write_output_prepend_block fs srcDir prepend name ver order p content out hp hex hout

theorem C3_amended_witness :
    ∃ pre post,
      "-- ==== BEGIN: src/h.lua ====\nrequire(\x27a\x27)\nx = 1\n\n-- ==== END: src/h.lua ====\n\n"
        = pre ++ (("-- ==== BEGIN: " ++ resolvePrepend fsC3 "src" "src/h.lua" ++ " ====\n")
            ++ "require(\x27a\x27)\nx = 1\n"
            ++ ("\n-- ==== END: " ++ resolvePrepend fsC3 "src" "src/h.lua" ++ " ====\n\n")) ++ post :=
  C3_prepend_content_intact_without_strip fsC3 "src" ["src/h.lua"] none none []
    "src/h.lua" "require(\x27a\x27)\nx = 1\n"
    "-- ==== BEGIN: src/h.lua ====\nrequire(\x27a\x27)\nx = 1\n\n-- ==== END: src/h.lua ====\n\n"
    (by decide) (by decide) (by decide)

/-- C7 counterexample: for the prepend file `src/p.lua` with content
`y = 2` plus newline, the claimed exact wrapping — BEGIN line, content,
immediately the END line, then one blank line — occurs nowhere in the
bundle: the builder inserts an extra newline between the content and the
END marker of every prepend unit. -/
theorem C7_counterexample :
    write_output fsC7 "src" ["src/p.lua"] false none none []
        = some "-- ==== BEGIN: src/p.lua ====\ny = 2\n\n-- ==== END: src/p.lua ====\n\n" ∧
    containsSub "-- ==== BEGIN: src/p.lua ====\ny = 2\n\n-- ==== END: src/p.lua ====\n\n"
        "-- ==== BEGIN: src/p.lua ====\ny = 2\n-- ==== END: src/p.lua ====\n\n" = false := by
  decide

/-- C7 (amended): with import-stripping disabled, each inlined unit is
wrapped as follows — an ordered file appears as its BEGIN line, its content
right-trimmed plus one newline, then immediately its END line and one blank
line; a prepend file appears as its BEGIN line, its raw content, then an
extra newline before its END line and one blank line. -/
theorem C7_unit_wrapping (fs : FS) (srcDir : String) (prepend : List String)
    (name ver : Option String) (order : List Path) (out : String)
    (hout : write_output fs srcDir prepend false name ver order = some out) :
    (∀ p ∈ prepend, ∀ content, fs (resolvePrepend fs srcDir p) = some content →
      ∃ pre post, out = pre ++ (("-- ==== BEGIN: " ++ resolvePrepend fs srcDir p ++ " ====\n")
        ++ content ++ ("\n-- ==== END: " ++ resolvePrepend fs srcDir p ++ " ====\n\n")) ++ post) ∧
    (∀ f ∈ order, ∀ content, fs f = some content →
      ∃ pre post, out = pre ++ (("-- ==== BEGIN: " ++ f ++ " ====\n")
        ++ (rstrip content ++ "\n") ++ ("-- ==== END: " ++ f ++ " ====\n\n")) ++ post) :=
  ⟨fun p hp content hex =>
      write_output_prepend_block fs srcDir prepend name ver order p content out hp hex hout,
    fun f hf content hex =>
      write_output_order_block fs srcDir prepend name ver order f content out hf hex hout⟩

theorem C7_amended_witness :
    ∃ pre post,
      "-- ==== BEGIN: src/p.lua ====\ny = 2\n\n-- ==== END: src/p.lua ====\n\n"
        = pre ++ (("-- ==== BEGIN: " ++ resolvePrepend fsC7 "src" "src/p.lua" ++ " ====\n")
            ++ "y = 2\n"
            ++ ("\n-- ==== END: " ++ resolvePrepend fsC7 "src" "src/p.lua" ++ " ====\n\n")) ++ post :=
  (C7_unit_wrapping fsC7 "src" ["src/p.lua"] none none []
      "-- ==== BEGIN: src/p.lua ====\ny = 2\n\n-- ==== END: src/p.lua ====\n\n"
      (by decide)).1 "src/p.lua" (by decide) "y = 2\n" (by decide)

end Bundler
